import Mathlib

/-!
Verification development for the go-repo-sync program (`main.go`).

The program mirrors branches and tags of local Git repositories from a
source remote to a target remote, applying a branch-name mapping.  The
Git library (go-git) is an external collaborator: every fallible
collaborator call is modelled by an oracle in a `World` structure, and
the control flow of the program (the per-repository loop of `main`) is embedded as
an executable interpreter that records the collaborator calls it makes
in a trace of `Act`s and threads the ref state of the repository.
-/

set_option maxRecDepth 4000

/-- A Git reference: a fully-qualified reference name (e.g.
`refs/heads/master`) paired with the commit hash it points at.  Mirrors
the go-git `plumbing.Reference` as used by `main.go` (only `Name()` and
`Hash()` are consumed). -/
structure Reference where
  name : String
  hash : String
deriving DecidableEq, Repr

/-- Character-list test that `p` starts the list `s` (equality char by
char); used to embed the Go standard-library string test below. -/
def chStarts : List Char → List Char → Bool
  | _, [] => true
  | [], _ :: _ => false
  | c :: cs, d :: ds => c == d && chStarts cs ds

/-- Embeds `strings.HasPrefix` of Go (byte/char equality on a leading
segment). -/
def strHasPrefix (s pre : String) : Bool :=
  chStarts s.toList pre.toList

/-- Embeds the go-git `ReferenceName.IsBranch()`: the name starts with
`refs/heads/`. -/
def isBranchName (n : String) : Bool :=
  strHasPrefix n "refs/heads/"

/-- Drop the first `n` characters of a string (Go slicing on ASCII names). -/
def strDropChars (s : String) (n : Nat) : String :=
  ⟨s.toList.drop n⟩

/-- Embeds the go-git `ReferenceName.Short()` for the names the program
applies it to: strips a `refs/heads/` (11 chars) or `refs/tags/`
(10 chars) prefix, otherwise returns the name unchanged. -/
def refShort (n : String) : String :=
  if strHasPrefix n "refs/heads/" then strDropChars n 11
  else if strHasPrefix n "refs/tags/" then strDropChars n 10
  else n

/-- Outcome of a fallible go-git collaborator call that distinguishes
`NoErrAlreadyUpToDate` from real errors. -/
inductive GitRes where
  | ok
  | autd  -- git.NoErrAlreadyUpToDate
  | err
deriving DecidableEq, Repr

/-- A remote as configured in the repository together with the refs its
`List()` call advertises. -/
structure RemoteCfg where
  name : String
  refs : List Reference
deriving DecidableEq, Repr

/-- The local repository ref state: local branches (`refs/heads/*`), the
name of the branch HEAD points at, and the local tags. -/
structure GitState where
  branches : List Reference
  headName : String
  tags : List Reference
deriving DecidableEq, Repr

/-- Static configuration of one repository run: its remotes (with
advertised refs), the configured source and target remote names, the
target URL, the branch mapping table, and the initial local state. -/
structure RepoCfg where
  remotes : List RemoteCfg
  sourceName : String
  targetName : String
  targetUrl : String
  mapping : List (String × String)
  init : GitState
deriving DecidableEq, Repr

/-- Oracle for the collaborator (go-git) calls the program makes.  Each
field answers one kind of call; `createRemoteRes` is the result of
`CreateRemote`, which `main.go` discards. -/
structure World where
  openFails : Bool
  getRemoteErr : Bool
  fetchRes : String → GitRes
  listFails : String → Bool
  checkoutFails : String → Bool
  headAfterCheckout : Reference → Reference
  pullRes : String → GitRes
  resetFails : Bool
  pushRes : List String → GitRes
  statusFails : Bool
  createRemoteRes : GitRes

/-- Collaborator calls the program performs, in the order performed. -/
inductive Act where
  | createRemoteA (name url : String)
  | fetchA (remote : String)
  | listA (remote : String)
  | checkoutCreateA (branch hash : String)
  | checkoutA (branch : String)
  | pullA (remote refName : String)
  | resetA (hash : String)
  | pushBranchA (remote : String) (refSpecs : List String)
  | pushTagA (remote : String) (refSpecs : List String)
deriving DecidableEq, Repr

/-- Result of (part of) a repository run: the collaborator calls made, the
resulting local state, and whether the program hit `os.Exit(1)`. -/
structure RunRes where
  trace : List Act
  state : GitState
  exited : Bool
deriving DecidableEq, Repr

/-- `mapBranch` from `main.go`: return the mapped branch name from the
`branchMapping` table, or the same name if there is no mapping. -/
def mapBranch (mapping : List (String × String)) (branchName : String) : String :=
  match mapping.lookup branchName with
  | some v => v
  | none => branchName

/-- `repoGetLocalBranchForRemote` from `main.go`: iterate the local
branches and remember the one whose fully-qualified name equals the
fully-qualified name of the remote branch (the loop overwrites, so the last
match wins); `none` when no local branch matches. -/
def repoGetLocalBranchForRemote (branches : List Reference)
    (remoteBranch : Reference) : Option Reference :=
  branches.foldl
    (fun acc localBranch =>
      if localBranch.name == remoteBranch.name then some localBranch else acc)
    none

/-- Update (or add) the local branch `name` to point at `hash`; embeds the
ref-store update performed by checkout/pull/reset on a branch. -/
def setBranch (bs : List Reference) (name hash : String) : List Reference :=
  if bs.any (fun b => b.name == name) then
    bs.map (fun b => if b.name == name then ⟨name, hash⟩ else b)
  else
    bs ++ [⟨name, hash⟩]

/-- The force ref-spec `main.go` builds for the branch push:
`+<local fully-qualified name>:refs/heads/<mapBranch(remote short name)>`. -/
def pushRefSpec (localName : String) (mapping : List (String × String))
    (remoteName : String) : String :=
  "+" ++ localName ++ ":refs/heads/" ++ mapBranch mapping (refShort remoteName)

/-- The force ref-spec `main.go` builds for each tag push:
`+refs/tags/<short>:refs/tags/<short>`. -/
def tagRefSpec (t : Reference) : String :=
  "+refs/tags/" ++ refShort t.name ++ ":refs/tags/" ++ refShort t.name

/-- The pull / reset / push / status tail of the per-branch body of `main`,
entered after the branch checkout succeeded.  `localBranch` is the Go
variable of that name: the pre-checkout snapshot on the update path, the
re-read HEAD on the create path.  A successful (`ok`) pull fast-forwards
the checked-out branch to the advertised remote tip; `autd` leaves the
state unchanged; the hard reset then moves the checked-out branch to
`localBranch.Hash()`. -/
def afterCheckout (w : World) (cfg : RepoCfg) (remoteBranch localBranch : Reference)
    (st : GitState) : RunRes :=
  let pullTr := [Act.pullA cfg.sourceName remoteBranch.name]
  if w.pullRes remoteBranch.name = GitRes.err then ⟨pullTr, st, true⟩
  else
    let st2 :=
      if w.pullRes remoteBranch.name = GitRes.ok then
        { st with branches := setBranch st.branches st.headName remoteBranch.hash }
      else st
    let tr2 := pullTr ++ [Act.resetA localBranch.hash]
    if w.resetFails then ⟨tr2, st2, true⟩
    else
      let st3 := { st2 with branches := setBranch st2.branches st2.headName localBranch.hash }
      let spec := pushRefSpec localBranch.name cfg.mapping remoteBranch.name
      let tr3 := tr2 ++ [Act.pushBranchA cfg.targetName [spec]]
      if w.pushRes [spec] = GitRes.err then ⟨tr3, st3, true⟩
      else if w.statusFails then ⟨tr3, st3, true⟩
      else ⟨tr3, st3, false⟩

/-- One iteration of the `for _, remoteBranch := range branchesToSync`
loop of `main`: find a matching local branch; on no match force-create-checkout the
branch at the remote hash, re-read HEAD and run the defensive consistency
check; on a match force-checkout the existing branch; then pull, reset,
push, status via `afterCheckout`. -/
def syncBranch (w : World) (cfg : RepoCfg) (remoteBranch : Reference)
    (st : GitState) : RunRes :=
  match repoGetLocalBranchForRemote st.branches remoteBranch with
  | none =>
    let tr0 := [Act.checkoutCreateA remoteBranch.name remoteBranch.hash]
    if w.checkoutFails remoteBranch.name then ⟨tr0, st, true⟩
    else
      let st1 := { st with branches := setBranch st.branches remoteBranch.name remoteBranch.hash,
                           headName := remoteBranch.name }
      let localBranch := w.headAfterCheckout remoteBranch
      if localBranch.hash != remoteBranch.hash || localBranch.name != remoteBranch.name then
        ⟨tr0, st1, true⟩
      else
        let rest := afterCheckout w cfg remoteBranch localBranch st1
        ⟨tr0 ++ rest.trace, rest.state, rest.exited⟩
  | some lb =>
    let tr0 := [Act.checkoutA lb.name]
    if w.checkoutFails lb.name then ⟨tr0, st, true⟩
    else
      let st1 := { st with headName := lb.name }
      let rest := afterCheckout w cfg remoteBranch lb st1
      ⟨tr0 ++ rest.trace, rest.state, rest.exited⟩

/-- The branch loop of `main`: process the branches to sync in order, stopping
at the first `os.Exit(1)`. -/
def runBranches (w : World) (cfg : RepoCfg) : List Reference → GitState → RunRes
  | [], st => ⟨[], st, false⟩
  | r :: rest, st =>
    let s := syncBranch w cfg r st
    if s.exited then s
    else
      let t := runBranches w cfg rest s.state
      ⟨s.trace ++ t.trace, t.state, t.exited⟩

/-- Result of the fetch phase: trace, the accumulated `branchesToSync`,
and whether the program exited. -/
structure FetchRes where
  trace : List Act
  branches : List Reference
  exited : Bool
deriving DecidableEq, Repr

/-- The fetch-everything loop of `main`: fetch every remote in order; for a
remote whose configured name equals the configured source name, list its
refs and collect those advertised refs that are branches. -/
def fetchPhase (w : World) (cfg : RepoCfg) : List RemoteCfg → FetchRes
  | [] => ⟨[], [], false⟩
  | rm :: rest =>
    let tr := [Act.fetchA rm.name]
    if w.fetchRes rm.name = GitRes.err then ⟨tr, [], true⟩
    else if rm.name == cfg.sourceName then
      let tr2 := tr ++ [Act.listA rm.name]
      if w.listFails rm.name then ⟨tr2, [], true⟩
      else
        let found := rm.refs.filter (fun r => isBranchName r.name)
        let rest' := fetchPhase w cfg rest
        ⟨tr2 ++ rest'.trace, found ++ rest'.branches, rest'.exited⟩
    else
      let rest' := fetchPhase w cfg rest
      ⟨tr ++ rest'.trace, rest'.branches, rest'.exited⟩

/-- The tag loop of `main`: push every local tag to the target remote with the
force ref-spec `+refs/tags/<short>:refs/tags/<short>`, stopping at the
first push error other than already-up-to-date. -/
def tagPhase (w : World) (cfg : RepoCfg) : List Reference → List Act × Bool
  | [] => ([], false)
  | t :: rest =>
    let tr := [Act.pushTagA cfg.targetName [tagRefSpec t]]
    if w.pushRes [tagRefSpec t] = GitRes.err then (tr, true)
    else
      let r := tagPhase w cfg rest
      (tr ++ r.1, r.2)

/-- The per-repository body of `main`: open the repository, provision the
target remote (`repo.Remote` error of any kind triggers `CreateRemote`,
whose result is discarded), fetch all remotes collecting the source
remote branches, reconcile each branch, then push all tags. -/
def runRepo (w : World) (cfg : RepoCfg) : RunRes :=
  if w.openFails then ⟨[], cfg.init, true⟩
  else
    let provTr :=
      if w.getRemoteErr then [Act.createRemoteA cfg.targetName cfg.targetUrl] else []
    let f := fetchPhase w cfg cfg.remotes
    if f.exited then ⟨provTr ++ f.trace, cfg.init, true⟩
    else
      let b := runBranches w cfg f.branches cfg.init
      if b.exited then ⟨provTr ++ f.trace ++ b.trace, b.state, true⟩
      else
        let t := tagPhase w cfg b.state.tags
        ⟨provTr ++ f.trace ++ b.trace ++ t.1, b.state, t.2⟩

/-- The top loop of `main` over the configured repositories: each repository is
processed in turn; the first exit leaves later repositories unprocessed. -/
def runAll : List (World × RepoCfg) → List (List Act) × Bool
  | [] => ([], false)
  | (w, cfg) :: rest =>
    let r := runRepo w cfg
    if r.exited then ([r.trace], true)
    else
      let t := runAll rest
      (r.trace :: t.1, t.2)

/-- The branches `main` would collect for the source remote: the
branch-shaped advertised refs of every remote named like the source. -/
def sourceBranches (cfg : RepoCfg) : List Reference :=
  ((cfg.remotes.filter (fun rm => rm.name == cfg.sourceName)).map
    (fun rm => rm.refs.filter (fun r => isBranchName r.name))).flatten

/-- The hash a local branch name points at, if the branch exists. -/
def branchHash (bs : List Reference) (n : String) : Option String :=
  (bs.find? (fun b => b.name == n)).map Reference.hash

/-- Spec-level reconciliation actions (`ReconciliationAction` of the
spec data model), abstracted from the collaborator-call trace. -/
inductive RAction where
  | createLocal (name hash : String)
  | updateLocal (name : String)
  | pushBranch (remote : String) (refSpecs : List String)
  | pushTag (remote : String) (refSpecs : List String)
deriving DecidableEq, Repr

/-- Abstraction of a single collaborator call to a spec-level action:
checkout-with-create opens a `CreateLocal`, checkout of an existing
branch opens an `UpdateLocal`, pushes map to pushes, and fetch / list /
pull / reset are internal to the create-or-update action. -/
def reconOf : Act → Option RAction
  | Act.checkoutCreateA n h => some (RAction.createLocal n h)
  | Act.checkoutA n => some (RAction.updateLocal n)
  | Act.pushBranchA rm sp => some (RAction.pushBranch rm sp)
  | Act.pushTagA rm sp => some (RAction.pushTag rm sp)
  | _ => none

/-- Spec-level view of a trace. -/
def reconTrace (tr : List Act) : List RAction :=
  tr.filterMap reconOf

/-- A world in which every collaborator call succeeds. -/
def happyWorld : World where
  openFails := false
  getRemoteErr := false
  fetchRes := fun _ => GitRes.ok
  listFails := fun _ => false
  checkoutFails := fun _ => false
  headAfterCheckout := fun r => r
  pullRes := fun _ => GitRes.ok
  resetFails := false
  pushRes := fun _ => GitRes.ok
  statusFails := false
  createRemoteRes := GitRes.ok

/-- Whether an action is a tag push. -/
def isTagPushA : Act → Bool
  | Act.pushTagA _ _ => true
  | _ => false

/-- The spec-level shape of the actions one remote branch contributes: a
create-or-update for that branch immediately followed by the single
force-push of that branch to the target remote. -/
def blockFor (cfg : RepoCfg) (r : Reference) (blk : List RAction) : Prop :=
  ∃ a, blk = [a, RAction.pushBranch cfg.targetName [pushRefSpec r.name cfg.mapping r.name]]
    ∧ (a = RAction.createLocal r.name r.hash ∨ a = RAction.updateLocal r.name)

/-- The remote a fetch action names, if the action is a fetch. -/
def fetchedRemote : Act → Option String
  | Act.fetchA n => some n
  | _ => none

/-- Every remote-listing call in a trace is immediately preceded by the
fetch of the same remote (so no listing is a pre-fetch snapshot). -/
def listPrecededByFetch : List Act → Bool
  | [] => true
  | Act.listA _ :: _ => false
  | Act.fetchA n :: Act.listA m :: rest => (n == m) && listPrecededByFetch rest
  | _ :: rest => listPrecededByFetch rest

/-- All collaborator calls succeed (possibly with already-up-to-date
results) and `repo.Head()` reports the reference just checked out. -/
def happyOps (w : World) : Prop :=
  w.openFails = false
  ∧ (∀ n, w.fetchRes n ≠ GitRes.err)
  ∧ (∀ n, w.listFails n = false)
  ∧ (∀ n, w.checkoutFails n = false)
  ∧ (∀ x, w.headAfterCheckout x = x)
  ∧ (∀ n, w.pullRes n ≠ GitRes.err)
  ∧ w.resetFails = false
  ∧ (∀ sp, w.pushRes sp ≠ GitRes.err)
  ∧ w.statusFails = false

/-- World where `repo.Head()` reports a wrong commit hash after checkout. -/
def badHeadWorld : World :=
  { happyWorld with headAfterCheckout := fun x => ⟨x.name, "zzz"⟩ }

/-- World where opening the repository fails. -/
def openFailWorld : World :=
  { happyWorld with openFails := true }

/-- World transformer: pulling the given reference errors. -/
def setPullErr (w : World) (n : String) : World :=
  { w with pullRes := fun m => if m == n then GitRes.err else w.pullRes m }

/-- World transformer: every fetch reports already-up-to-date. -/
def setAllFetchAutd (w : World) : World :=
  { w with fetchRes := fun _ => GitRes.autd }

/-- World transformer: every pull reports already-up-to-date. -/
def setAllPullAutd (w : World) : World :=
  { w with pullRes := fun _ => GitRes.autd }

/-- World transformer: every push reports already-up-to-date. -/
def setAllPushAutd (w : World) : World :=
  { w with pushRes := fun _ => GitRes.autd }

/-- World transformer: every push errors. -/
def setAllPushErr (w : World) : World :=
  { w with pushRes := fun _ => GitRes.err }

/-- World transformer: every fetch errors. -/
def setAllFetchErr (w : World) : World :=
  { w with fetchRes := fun _ => GitRes.err }

/-- World transformer: every remote-listing call errors. -/
def setAllListErr (w : World) : World :=
  { w with listFails := fun _ => true }

/-- World transformer: every checkout errors. -/
def setAllCheckoutErr (w : World) : World :=
  { w with checkoutFails := fun _ => true }

/-- World transformer: the hard reset errors. -/
def setResetErr (w : World) : World :=
  { w with resetFails := true }

/-- World transformer: the status query errors. -/
def setStatusErr (w : World) : World :=
  { w with statusFails := true }

/-- Whether an action is a remote-listing call. -/
def isListA : Act → Bool
  | Act.listA _ => true
  | _ => false

/-- Whether an action is a fetch call. -/
def isFetchA : Act → Bool
  | Act.fetchA _ => true
  | _ => false

/-- A repository whose local `master` is stale (at `aaa`) while the source
remote advertises `master` at `bbb`. -/
def cexCfg : RepoCfg :=
  { remotes := [⟨"origin", [⟨"refs/heads/master", "bbb"⟩]⟩]
    sourceName := "origin"
    targetName := "github"
    targetUrl := "git@github.com:bar/foo.git"
    mapping := []
    init := { branches := [⟨"refs/heads/master", "aaa"⟩]
              headName := "refs/heads/master"
              tags := [] } }

/-- The scenario repository of the spec: mapping master to main, one remote
branch `master` at `abc123` (plus a non-branch `HEAD` ref), no local
branches, one local tag `v1`. -/
def scenCfg : RepoCfg :=
  { remotes := [⟨"origin", [⟨"refs/heads/master", "abc123"⟩, ⟨"HEAD", "abc123"⟩]⟩]
    sourceName := "origin"
    targetName := "github"
    targetUrl := "git@github.com:bar/foo.git"
    mapping := [("master", "main")]
    init := { branches := []
              headName := "refs/heads/main"
              tags := [⟨"refs/tags/v1", "abc123"⟩] } }

/-- Repository with no remote named like the configured source remote. -/
def noSrcCfg : RepoCfg :=
  { remotes := [⟨"github", [⟨"refs/heads/main", "ccc"⟩]⟩]
    sourceName := "origin"
    targetName := "github"
    targetUrl := "git@github.com:bar/foo.git"
    mapping := []
    init := { branches := []
              headName := "refs/heads/main"
              tags := [⟨"refs/tags/v1", "ccc"⟩] } }

lemma foldl_match_none_iff (r : Reference) :
    ∀ (bs : List Reference) (acc : Option Reference),
      bs.foldl (fun a lb => if lb.name == r.name then some lb else a) acc = none ↔
        acc = none ∧ ∀ lb ∈ bs, lb.name ≠ r.name := by
  intro bs
  induction bs with
  | nil => simp
  | cons b bs ih =>
    intro acc
    simp only [List.foldl_cons]
    by_cases hb : b.name = r.name
    · have hstep : (if (b.name == r.name) = true then some b else acc) = some b := by
        simp [hb]
      rw [hstep, ih]
      constructor
      · rintro ⟨h1, -⟩; cases h1
      · rintro ⟨-, h2⟩
        exact absurd hb (h2 b (List.mem_cons_self _ _))
    · have hstep : (if (b.name == r.name) = true then some b else acc) = acc := by
        simp [hb]
      rw [hstep, ih]
      constructor
      · rintro ⟨h1, h2⟩
        refine ⟨h1, ?_⟩
        intro lb hlb
        rcases List.mem_cons.1 hlb with rfl | hlb
        · exact hb
        · exact h2 lb hlb
      · rintro ⟨h1, h2⟩
        exact ⟨h1, fun lb hlb => h2 lb (List.mem_cons_of_mem _ hlb)⟩

lemma foldl_match_some (r : Reference) :
    ∀ (bs : List Reference) (acc : Option Reference) (lb : Reference),
      bs.foldl (fun a x => if x.name == r.name then some x else a) acc = some lb →
        acc = some lb ∨ (lb ∈ bs ∧ lb.name = r.name) := by
  intro bs
  induction bs with
  | nil => simp
  | cons b bs ih =>
    intro acc lb h
    simp only [List.foldl_cons] at h
    by_cases hb : b.name = r.name
    · have hstep : (if (b.name == r.name) = true then some b else acc) = some b := by
        simp [hb]
      rw [hstep] at h
      rcases ih _ _ h with h1 | h1
      · right; cases h1; exact ⟨List.mem_cons_self _ _, hb⟩
      · right; exact ⟨List.mem_cons_of_mem _ h1.1, h1.2⟩
    · have hstep : (if (b.name == r.name) = true then some b else acc) = acc := by
        simp [hb]
      rw [hstep] at h
      rcases ih _ _ h with h1 | h1
      · left; exact h1
      · right; exact ⟨List.mem_cons_of_mem _ h1.1, h1.2⟩

lemma rgl_none_iff (bs : List Reference) (r : Reference) :
    repoGetLocalBranchForRemote bs r = none ↔ ∀ lb ∈ bs, lb.name ≠ r.name := by
  unfold repoGetLocalBranchForRemote
  rw [foldl_match_none_iff]
  simp

lemma rgl_some_mem (bs : List Reference) (r lb : Reference)
    (h : repoGetLocalBranchForRemote bs r = some lb) : lb ∈ bs ∧ lb.name = r.name := by
  unfold repoGetLocalBranchForRemote at h
  rcases foldl_match_some r bs none lb h with h1 | h1
  · cases h1
  · exact h1

lemma find_map_set (n h : String) :
    ∀ bs : List Reference, bs.any (fun b => b.name == n) = true →
      (bs.map (fun b => if b.name == n then ⟨n, h⟩ else b)).find? (fun b => b.name == n)
        = some ⟨n, h⟩ := by
  intro bs
  induction bs with
  | nil => simp
  | cons b bs ih =>
    intro hany
    by_cases hb : b.name = n
    · have hstep : (if (b.name == n) = true then (⟨n, h⟩ : Reference) else b) = ⟨n, h⟩ := by
        simp [hb]
      simp only [List.map_cons, hstep]
      rw [List.find?_cons_of_pos]
      simp
    · have hstep : (if (b.name == n) = true then (⟨n, h⟩ : Reference) else b) = b := by
        simp [hb]
      simp only [List.map_cons, hstep]
      rw [List.find?_cons_of_neg _ (by simp [hb])]
      apply ih
      simp only [List.any_cons, Bool.or_eq_true] at hany
      rcases hany with h1 | h1
      · exact absurd (by simpa using h1) hb
      · exact h1

lemma find_append_single (n h : String) :
    ∀ bs : List Reference, (∀ b ∈ bs, b.name ≠ n) →
      (bs ++ [(⟨n, h⟩ : Reference)]).find? (fun b => b.name == n) = some ⟨n, h⟩ := by
  intro bs
  induction bs with
  | nil => simp
  | cons b bs ih =>
    intro hall
    rw [List.cons_append, List.find?_cons_of_neg _ (by simp [hall b (List.mem_cons_self _ _)])]
    exact ih (fun x hx => hall x (List.mem_cons_of_mem _ hx))

lemma find_setBranch (bs : List Reference) (n h : String) :
    (setBranch bs n h).find? (fun b => b.name == n) = some ⟨n, h⟩ := by
  unfold setBranch
  by_cases hany : bs.any (fun b => b.name == n) = true
  · rw [if_pos hany]
    exact find_map_set n h bs hany
  · rw [if_neg hany]
    apply find_append_single
    intro b hb hbn
    exact hany (List.any_eq_true.2 ⟨b, hb, by simp [hbn]⟩)

lemma branchHash_setBranch (bs : List Reference) (n h : String) :
    branchHash (setBranch bs n h) n = some h := by
  unfold branchHash
  rw [find_setBranch]
  rfl

lemma afterCheckout_pull_err (w : World) (cfg : RepoCfg) (rb lb : Reference) (st : GitState)
    (hp : w.pullRes rb.name = GitRes.err) :
    afterCheckout w cfg rb lb st = ⟨[Act.pullA cfg.sourceName rb.name], st, true⟩ := by
  simp [afterCheckout, hp]

lemma afterCheckout_spec (w : World) (cfg : RepoCfg) (rb lb : Reference) (st : GitState)
    (h : (afterCheckout w cfg rb lb st).exited = false) :
    (afterCheckout w cfg rb lb st).trace
      = [Act.pullA cfg.sourceName rb.name, Act.resetA lb.hash,
         Act.pushBranchA cfg.targetName [pushRefSpec lb.name cfg.mapping rb.name]]
    ∧ branchHash (afterCheckout w cfg rb lb st).state.branches st.headName = some lb.hash
    ∧ (afterCheckout w cfg rb lb st).state.tags = st.tags := by
  unfold afterCheckout at h ⊢
  split_ifs at h ⊢ <;>
    by_cases hpu : w.pushRes [pushRefSpec lb.name cfg.mapping rb.name] = GitRes.err <;>
    simp_all [branchHash_setBranch]

lemma afterCheckout_happy (w : World) (cfg : RepoCfg) (rb lb : Reference) (st : GitState)
    (hp : w.pullRes rb.name ≠ GitRes.err) (hr : w.resetFails = false)
    (hpu : ∀ sp, w.pushRes sp ≠ GitRes.err) (hs : w.statusFails = false) :
    (afterCheckout w cfg rb lb st).exited = false := by
  unfold afterCheckout
  split_ifs <;> simp_all

lemma refEq_of_parts (x y : Reference) (h1 : x.name = y.name) (h2 : x.hash = y.hash) :
    x = y := by
  cases x; cases y; simp_all

lemma syncBranch_update_eq (w : World) (cfg : RepoCfg) (r : Reference) (st : GitState)
    (lb : Reference) (hm : repoGetLocalBranchForRemote st.branches r = some lb) :
    syncBranch w cfg r st =
      if w.checkoutFails lb.name then ⟨[Act.checkoutA lb.name], st, true⟩
      else
        let rest := afterCheckout w cfg r lb { st with headName := lb.name }
        ⟨Act.checkoutA lb.name :: rest.trace, rest.state, rest.exited⟩ := by
  unfold syncBranch
  rw [hm]
  rfl

lemma syncBranch_create_eq (w : World) (cfg : RepoCfg) (r : Reference) (st : GitState)
    (hm : repoGetLocalBranchForRemote st.branches r = none) :
    syncBranch w cfg r st =
      if w.checkoutFails r.name then ⟨[Act.checkoutCreateA r.name r.hash], st, true⟩
      else
        let st1 : GitState :=
          { st with branches := setBranch st.branches r.name r.hash, headName := r.name }
        if (w.headAfterCheckout r).hash != r.hash || (w.headAfterCheckout r).name != r.name then
          ⟨[Act.checkoutCreateA r.name r.hash], st1, true⟩
        else
          let rest := afterCheckout w cfg r (w.headAfterCheckout r) st1
          ⟨Act.checkoutCreateA r.name r.hash :: rest.trace, rest.state, rest.exited⟩ := by
  unfold syncBranch
  rw [hm]
  rfl

lemma syncBranch_spec_update (w : World) (cfg : RepoCfg) (r : Reference) (st : GitState)
    (lb : Reference) (hm : repoGetLocalBranchForRemote st.branches r = some lb)
    (h : (syncBranch w cfg r st).exited = false) :
    (syncBranch w cfg r st).trace
      = [Act.checkoutA lb.name, Act.pullA cfg.sourceName r.name, Act.resetA lb.hash,
         Act.pushBranchA cfg.targetName [pushRefSpec lb.name cfg.mapping r.name]]
    ∧ branchHash (syncBranch w cfg r st).state.branches lb.name = some lb.hash
    ∧ (syncBranch w cfg r st).state.tags = st.tags := by
  rw [syncBranch_update_eq w cfg r st lb hm] at h ⊢
  by_cases hc : w.checkoutFails lb.name = true
  · rw [if_pos hc] at h; cases h
  · rw [if_neg hc] at h ⊢
    simp only at h ⊢
    have hs := afterCheckout_spec w cfg r lb { st with headName := lb.name } h
    simp only at hs
    exact ⟨by rw [hs.1], hs.2.1, hs.2.2⟩

lemma syncBranch_spec_create (w : World) (cfg : RepoCfg) (r : Reference) (st : GitState)
    (hm : repoGetLocalBranchForRemote st.branches r = none)
    (h : (syncBranch w cfg r st).exited = false) :
    w.headAfterCheckout r = r
    ∧ (syncBranch w cfg r st).trace
      = [Act.checkoutCreateA r.name r.hash, Act.pullA cfg.sourceName r.name, Act.resetA r.hash,
         Act.pushBranchA cfg.targetName [pushRefSpec r.name cfg.mapping r.name]]
    ∧ branchHash (syncBranch w cfg r st).state.branches r.name = some r.hash
    ∧ (syncBranch w cfg r st).state.tags = st.tags := by
  rw [syncBranch_create_eq w cfg r st hm] at h ⊢
  by_cases hc : w.checkoutFails r.name = true
  · rw [if_pos hc] at h; cases h
  · rw [if_neg hc] at h ⊢
    by_cases hhd : w.headAfterCheckout r = r
    · have hc2 : ((w.headAfterCheckout r).hash != r.hash
          || (w.headAfterCheckout r).name != r.name) = false := by
        rw [hhd]; simp
      rw [hc2] at h ⊢
      simp only [Bool.false_eq_true, if_false] at h ⊢
      rw [hhd] at h ⊢
      have hs := afterCheckout_spec w cfg r r
        { st with branches := setBranch st.branches r.name r.hash, headName := r.name } h
      simp only at hs
      exact ⟨rfl, by rw [hs.1], hs.2.1, hs.2.2⟩
    · have hc2 : ((w.headAfterCheckout r).hash != r.hash
          || (w.headAfterCheckout r).name != r.name) = true := by
        by_contra hcc
        have hf := Bool.or_eq_false_iff.1 (Bool.eq_false_iff.2 hcc)
        exact hhd (refEq_of_parts _ _ (by simpa using hf.2) (by simpa using hf.1))
      rw [hc2] at h
      simp at h

lemma afterCheckout_trace_cases (w : World) (cfg : RepoCfg) (rb lb : Reference) (st : GitState) :
    (afterCheckout w cfg rb lb st).trace = [Act.pullA cfg.sourceName rb.name]
  ∨ (afterCheckout w cfg rb lb st).trace
      = [Act.pullA cfg.sourceName rb.name, Act.resetA lb.hash]
  ∨ (afterCheckout w cfg rb lb st).trace
      = [Act.pullA cfg.sourceName rb.name, Act.resetA lb.hash,
         Act.pushBranchA cfg.targetName [pushRefSpec lb.name cfg.mapping rb.name]] := by
  unfold afterCheckout
  split_ifs <;>
    simp [apply_ite RunRes.trace, apply_ite RunRes.state, apply_ite GitState.branches,
      apply_ite GitState.tags]

lemma afterCheckout_branches_cases (w : World) (cfg : RepoCfg) (rb lb : Reference)
    (st : GitState) :
    (afterCheckout w cfg rb lb st).state.branches = st.branches
  ∨ (afterCheckout w cfg rb lb st).state.branches = setBranch st.branches st.headName rb.hash
  ∨ (afterCheckout w cfg rb lb st).state.branches = setBranch st.branches st.headName lb.hash
  ∨ (afterCheckout w cfg rb lb st).state.branches
      = setBranch (setBranch st.branches st.headName rb.hash) st.headName lb.hash := by
  unfold afterCheckout
  split_ifs <;>
    simp [apply_ite RunRes.trace, apply_ite RunRes.state, apply_ite GitState.branches,
      apply_ite GitState.tags]

lemma afterCheckout_tags (w : World) (cfg : RepoCfg) (rb lb : Reference) (st : GitState) :
    (afterCheckout w cfg rb lb st).state.tags = st.tags := by
  unfold afterCheckout
  split_ifs <;>
    simp [apply_ite RunRes.trace, apply_ite RunRes.state, apply_ite GitState.branches,
      apply_ite GitState.tags]

lemma afterCheckout_no_tagPush (w : World) (cfg : RepoCfg) (rb lb : Reference) (st : GitState) :
    ∀ a ∈ (afterCheckout w cfg rb lb st).trace, isTagPushA a = false := by
  intro a ha
  rcases afterCheckout_trace_cases w cfg rb lb st with h1 | h1 | h1 <;> rw [h1] at ha <;>
    simp only [List.mem_cons, List.not_mem_nil, or_false] at ha
  · subst ha; rfl
  · rcases ha with rfl | rfl <;> rfl
  · rcases ha with rfl | rfl | rfl <;> rfl

lemma syncBranch_tags (w : World) (cfg : RepoCfg) (r : Reference) (st : GitState) :
    (syncBranch w cfg r st).state.tags = st.tags := by
  cases hm : repoGetLocalBranchForRemote st.branches r
  case none =>
    rw [syncBranch_create_eq w cfg r st hm]
    split_ifs <;> simp [afterCheckout_tags]
  case some lb =>
    rw [syncBranch_update_eq w cfg r st lb hm]
    split_ifs <;> simp [afterCheckout_tags]

lemma syncBranch_no_tagPush (w : World) (cfg : RepoCfg) (r : Reference) (st : GitState) :
    ∀ a ∈ (syncBranch w cfg r st).trace, isTagPushA a = false := by
  intro a ha
  cases hm : repoGetLocalBranchForRemote st.branches r
  case none =>
    rw [syncBranch_create_eq w cfg r st hm] at ha
    split_ifs at ha <;> simp only [List.mem_cons, List.not_mem_nil, or_false] at ha
    · subst ha; rfl
    · subst ha; rfl
    · rcases ha with rfl | ha
      · rfl
      · exact afterCheckout_no_tagPush w cfg r _ _ a ha
  case some lb =>
    rw [syncBranch_update_eq w cfg r st lb hm] at ha
    split_ifs at ha <;> simp only [List.mem_cons, List.not_mem_nil, or_false] at ha
    · subst ha; rfl
    · rcases ha with rfl | ha
      · rfl
      · exact afterCheckout_no_tagPush w cfg r _ _ a ha

lemma syncBranch_happy (w : World) (cfg : RepoCfg) (r : Reference) (st : GitState)
    (hc : ∀ n, w.checkoutFails n = false) (hh : ∀ x, w.headAfterCheckout x = x)
    (hp : ∀ n, w.pullRes n ≠ GitRes.err) (hr : w.resetFails = false)
    (hpu : ∀ sp, w.pushRes sp ≠ GitRes.err) (hs : w.statusFails = false) :
    (syncBranch w cfg r st).exited = false := by
  cases hm : repoGetLocalBranchForRemote st.branches r
  case none =>
    rw [syncBranch_create_eq w cfg r st hm]
    rw [if_neg (by simp [hc])]
    rw [hh r]
    simp only [bne_self_eq_false, Bool.or_self, Bool.false_eq_true, if_false]
    exact afterCheckout_happy w cfg r r _ (hp _) hr hpu hs
  case some lb =>
    rw [syncBranch_update_eq w cfg r st lb hm]
    rw [if_neg (by simp [hc])]
    exact afterCheckout_happy w cfg r lb _ (hp _) hr hpu hs

lemma syncBranch_exited_of_pull_err (w : World) (cfg : RepoCfg) (r : Reference) (st : GitState)
    (hp : w.pullRes r.name = GitRes.err) :
    (syncBranch w cfg r st).exited = true := by
  cases hm : repoGetLocalBranchForRemote st.branches r
  case none =>
    rw [syncBranch_create_eq w cfg r st hm]
    split_ifs <;> simp [afterCheckout_pull_err w cfg r _ _ hp]
  case some lb =>
    rw [syncBranch_update_eq w cfg r st lb hm]
    split_ifs <;> simp [afterCheckout_pull_err w cfg r _ _ hp]

lemma setBranch_names (bs : List Reference) (n h : String) :
    ∀ b ∈ setBranch bs n h, b.name ∈ bs.map Reference.name ∨ b.name = n := by
  unfold setBranch
  split_ifs with hany
  · intro b hb
    rcases List.mem_map.1 hb with ⟨x, hx, hbx⟩
    by_cases hxn : x.name = n
    · right
      rw [← hbx]
      simp [hxn]
    · left
      rw [← hbx]
      have : (if (x.name == n) = true then (⟨n, h⟩ : Reference) else x) = x := by
        simp [hxn]
      rw [this]
      exact List.mem_map_of_mem _ hx
  · intro b hb
    rcases List.mem_append.1 hb with hb | hb
    · exact Or.inl (List.mem_map_of_mem _ hb)
    · right
      rw [List.mem_singleton.1 hb]

lemma setBranch_names_chain (base bs : List Reference) (n n2 h : String) (hn2 : n2 = n)
    (hbs : ∀ b ∈ bs, b.name ∈ base.map Reference.name ∨ b.name = n) :
    ∀ b ∈ setBranch bs n2 h, b.name ∈ base.map Reference.name ∨ b.name = n := by
  intro b hb
  rcases setBranch_names bs n2 h b hb with h1 | h1
  · rcases List.mem_map.1 h1 with ⟨x, hx, hbx⟩
    rcases hbs x hx with h2 | h2
    · exact Or.inl (hbx ▸ h2)
    · exact Or.inr (hbx ▸ h2)
  · exact Or.inr (hn2 ▸ h1)

lemma syncBranch_branch_names (w : World) (cfg : RepoCfg) (r : Reference) (st : GitState) :
    ∀ b ∈ (syncBranch w cfg r st).state.branches,
      b.name ∈ st.branches.map Reference.name ∨ b.name = r.name := by
  intro b hb
  cases hm : repoGetLocalBranchForRemote st.branches r
  case none =>
    rw [syncBranch_create_eq w cfg r st hm] at hb
    split_ifs at hb
    · exact Or.inl (List.mem_map_of_mem _ hb)
    · exact setBranch_names st.branches r.name r.hash b hb
    · have hbase := setBranch_names st.branches r.name r.hash
      rcases afterCheckout_branches_cases w cfg r (w.headAfterCheckout r)
          { st with branches := setBranch st.branches r.name r.hash, headName := r.name }
        with h1 | h1 | h1 | h1 <;> rw [h1] at hb
      · exact hbase b hb
      · exact setBranch_names_chain st.branches _ _ _ _ rfl hbase b hb
      · exact setBranch_names_chain st.branches _ _ _ _ rfl hbase b hb
      · exact setBranch_names_chain st.branches _ _ _ _ rfl
          (setBranch_names_chain st.branches _ _ _ _ rfl hbase) b hb
  case some lb =>
    have hlb := rgl_some_mem st.branches r lb hm
    rw [syncBranch_update_eq w cfg r st lb hm] at hb
    rw [← hlb.2]
    split_ifs at hb
    · exact Or.inl (List.mem_map_of_mem _ hb)
    · have hbase : ∀ x ∈ st.branches, x.name ∈ st.branches.map Reference.name ∨ x.name = lb.name :=
        fun x hx => Or.inl (List.mem_map_of_mem _ hx)
      rcases afterCheckout_branches_cases w cfg r lb { st with headName := lb.name }
        with h1 | h1 | h1 | h1 <;> rw [h1] at hb
      · exact hbase b hb
      · exact setBranch_names_chain st.branches _ _ _ _ rfl hbase b hb
      · exact setBranch_names_chain st.branches _ _ _ _ rfl hbase b hb
      · exact setBranch_names_chain st.branches _ _ _ _ rfl
          (setBranch_names_chain st.branches _ _ _ _ rfl hbase) b hb

lemma runBranches_cons_exited (w : World) (cfg : RepoCfg) (r : Reference)
    (rest : List Reference) (st : GitState) (h : (syncBranch w cfg r st).exited = true) :
    runBranches w cfg (r :: rest) st = syncBranch w cfg r st := by
  simp [runBranches, h]

lemma runBranches_cons_ok (w : World) (cfg : RepoCfg) (r : Reference)
    (rest : List Reference) (st : GitState) (h : (syncBranch w cfg r st).exited = false) :
    runBranches w cfg (r :: rest) st =
      ⟨(syncBranch w cfg r st).trace
         ++ (runBranches w cfg rest (syncBranch w cfg r st).state).trace,
       (runBranches w cfg rest (syncBranch w cfg r st).state).state,
       (runBranches w cfg rest (syncBranch w cfg r st).state).exited⟩ := by
  simp [runBranches, h]

lemma runBranches_happy (w : World) (cfg : RepoCfg)
    (hc : ∀ n, w.checkoutFails n = false) (hh : ∀ x, w.headAfterCheckout x = x)
    (hp : ∀ n, w.pullRes n ≠ GitRes.err) (hr : w.resetFails = false)
    (hpu : ∀ sp, w.pushRes sp ≠ GitRes.err) (hs : w.statusFails = false) :
    ∀ (bs : List Reference) (st : GitState), (runBranches w cfg bs st).exited = false := by
  intro bs
  induction bs with
  | nil => intro st; rfl
  | cons r rest ih =>
    intro st
    have h1 := syncBranch_happy w cfg r st hc hh hp hr hpu hs
    rw [runBranches_cons_ok w cfg r rest st h1]
    exact ih _

lemma runBranches_tags (w : World) (cfg : RepoCfg) :
    ∀ (bs : List Reference) (st : GitState), (runBranches w cfg bs st).state.tags = st.tags := by
  intro bs
  induction bs with
  | nil => intro st; rfl
  | cons r rest ih =>
    intro st
    cases h1 : (syncBranch w cfg r st).exited with
    | true =>
      rw [runBranches_cons_exited w cfg r rest st h1]
      exact syncBranch_tags w cfg r st
    | false =>
      rw [runBranches_cons_ok w cfg r rest st h1]
      rw [show (⟨(syncBranch w cfg r st).trace
           ++ (runBranches w cfg rest (syncBranch w cfg r st).state).trace,
         (runBranches w cfg rest (syncBranch w cfg r st).state).state,
         (runBranches w cfg rest (syncBranch w cfg r st).state).exited⟩ : RunRes).state
         = (runBranches w cfg rest (syncBranch w cfg r st).state).state from rfl]
      rw [ih _]
      exact syncBranch_tags w cfg r st

lemma runBranches_no_tagPush (w : World) (cfg : RepoCfg) :
    ∀ (bs : List Reference) (st : GitState),
      ∀ a ∈ (runBranches w cfg bs st).trace, isTagPushA a = false := by
  intro bs
  induction bs with
  | nil => intro st a ha; cases ha
  | cons r rest ih =>
    intro st a ha
    cases h1 : (syncBranch w cfg r st).exited with
    | true =>
      rw [runBranches_cons_exited w cfg r rest st h1] at ha
      exact syncBranch_no_tagPush w cfg r st a ha
    | false =>
      rw [runBranches_cons_ok w cfg r rest st h1] at ha
      rcases List.mem_append.1 ha with ha | ha
      · exact syncBranch_no_tagPush w cfg r st a ha
      · exact ih _ a ha

lemma reconTrace_append (xs ys : List Act) :
    reconTrace (xs ++ ys) = reconTrace xs ++ reconTrace ys :=
  List.filterMap_append _ _ _

lemma syncBranch_recon (w : World) (cfg : RepoCfg) (r : Reference) (st : GitState)
    (h : (syncBranch w cfg r st).exited = false) :
    reconTrace (syncBranch w cfg r st).trace
      = [(match repoGetLocalBranchForRemote st.branches r with
          | none => RAction.createLocal r.name r.hash
          | some _ => RAction.updateLocal r.name),
         RAction.pushBranch cfg.targetName [pushRefSpec r.name cfg.mapping r.name]] := by
  cases hm : repoGetLocalBranchForRemote st.branches r
  case none =>
    have hs := syncBranch_spec_create w cfg r st hm h
    rw [hs.2.1]
    simp [reconTrace, reconOf]
  case some lb =>
    have hlb := rgl_some_mem st.branches r lb hm
    have hs := syncBranch_spec_update w cfg r st lb hm h
    rw [hs.1]
    simp [reconTrace, reconOf, hlb.2]

lemma syncBranch_blockFor (w : World) (cfg : RepoCfg) (r : Reference) (st : GitState)
    (h : (syncBranch w cfg r st).exited = false) :
    blockFor cfg r (reconTrace (syncBranch w cfg r st).trace) := by
  rw [syncBranch_recon w cfg r st h]
  refine ⟨_, rfl, ?_⟩
  cases repoGetLocalBranchForRemote st.branches r
  · exact Or.inl rfl
  · exact Or.inr rfl

lemma runBranches_blocks (w : World) (cfg : RepoCfg) :
    ∀ (bs : List Reference) (st : GitState),
      (runBranches w cfg bs st).exited = false →
      ∃ blocks : List (List RAction),
        reconTrace (runBranches w cfg bs st).trace = blocks.flatten
        ∧ List.Forall₂ (blockFor cfg) bs blocks := by
  intro bs
  induction bs with
  | nil => intro st _; exact ⟨[], by simp [runBranches, reconTrace], List.Forall₂.nil⟩
  | cons r rest ih =>
    intro st h
    cases h1 : (syncBranch w cfg r st).exited with
    | true =>
      rw [runBranches_cons_exited w cfg r rest st h1, h1] at h
      cases h
    | false =>
      rw [runBranches_cons_ok w cfg r rest st h1] at h ⊢
      simp only at h ⊢
      obtain ⟨blocks, hb1, hb2⟩ := ih (syncBranch w cfg r st).state h
      refine ⟨reconTrace (syncBranch w cfg r st).trace :: blocks, ?_, ?_⟩
      · rw [reconTrace_append, hb1, List.flatten_cons]
      · exact List.Forall₂.cons (syncBranch_blockFor w cfg r st h1) hb2

lemma runBranches_creates (w : World) (cfg : RepoCfg) :
    ∀ (bs : List Reference) (st : GitState),
      (runBranches w cfg bs st).exited = false →
      (∀ b ∈ st.branches, b.name ∉ bs.map Reference.name) →
      (bs.map Reference.name).Nodup →
      reconTrace (runBranches w cfg bs st).trace
        = (bs.map (fun r => [RAction.createLocal r.name r.hash,
            RAction.pushBranch cfg.targetName [pushRefSpec r.name cfg.mapping r.name]])).flatten := by
  intro bs
  induction bs with
  | nil => intro st _ _ _; simp [runBranches, reconTrace]
  | cons r rest ih =>
    intro st h hdisj hnodup
    have hm : repoGetLocalBranchForRemote st.branches r = none := by
      rw [rgl_none_iff]
      intro lb hlb hln
      exact hdisj lb hlb (by rw [hln, List.map_cons]; exact List.mem_cons_self _ _)
    cases h1 : (syncBranch w cfg r st).exited with
    | true =>
      rw [runBranches_cons_exited w cfg r rest st h1, h1] at h
      cases h
    | false =>
      rw [runBranches_cons_ok w cfg r rest st h1] at h ⊢
      simp only at h ⊢
      rw [List.map_cons, List.nodup_cons] at hnodup
      have hdisj' : ∀ b ∈ (syncBranch w cfg r st).state.branches,
          b.name ∉ rest.map Reference.name := by
        intro b hb hbn
        rcases syncBranch_branch_names w cfg r st b hb with h2 | h2
        · rcases List.mem_map.1 h2 with ⟨x, hx, hxn⟩
          exact hdisj x hx (by rw [hxn, List.map_cons]; exact List.mem_cons_of_mem _ hbn)
        · rw [h2] at hbn
          exact hnodup.1 hbn
      rw [reconTrace_append, syncBranch_recon w cfg r st h1, hm,
        ih (syncBranch w cfg r st).state h hdisj' hnodup.2, List.map_cons, List.flatten_cons]

lemma fetchPhase_fetches (w : World) (cfg : RepoCfg) :
    ∀ rs : List RemoteCfg, (fetchPhase w cfg rs).exited = false →
      (fetchPhase w cfg rs).trace.filterMap fetchedRemote = rs.map RemoteCfg.name := by
  intro rs
  induction rs with
  | nil => intro _; rfl
  | cons rm rest ih =>
    intro h
    unfold fetchPhase at h ⊢
    split_ifs at h ⊢ <;>
      simp_all [List.filterMap_append, fetchedRemote, reconTrace]

lemma fetchPhase_branches (w : World) (cfg : RepoCfg) :
    ∀ rs : List RemoteCfg, (fetchPhase w cfg rs).exited = false →
      (fetchPhase w cfg rs).branches
        = ((rs.filter (fun rm => rm.name == cfg.sourceName)).map
            (fun rm => rm.refs.filter (fun r => isBranchName r.name))).flatten := by
  intro rs
  induction rs with
  | nil => intro _; rfl
  | cons rm rest ih =>
    intro h
    unfold fetchPhase at h ⊢
    split_ifs at h ⊢ <;> simp_all [List.filter_cons]

lemma fetchPhase_happy (w : World) (cfg : RepoCfg)
    (hf : ∀ n, w.fetchRes n ≠ GitRes.err) (hl : ∀ n, w.listFails n = false) :
    ∀ rs : List RemoteCfg, (fetchPhase w cfg rs).exited = false := by
  intro rs
  induction rs with
  | nil => rfl
  | cons rm rest ih =>
    unfold fetchPhase
    split_ifs <;> simp_all

lemma fetchPhase_no_tagPush (w : World) (cfg : RepoCfg) :
    ∀ rs : List RemoteCfg, ∀ a ∈ (fetchPhase w cfg rs).trace, isTagPushA a = false := by
  intro rs
  induction rs with
  | nil => intro a ha; cases ha
  | cons rm rest ih =>
    intro a ha
    unfold fetchPhase at ha
    split_ifs at ha <;>
      simp only [List.cons_append, List.nil_append, List.mem_cons, List.mem_append,
        List.not_mem_nil, or_false] at ha
    · subst ha; rfl
    · rcases ha with rfl | rfl <;> rfl
    · rcases ha with rfl | rfl | ha
      · rfl
      · rfl
      · exact ih a ha
    · rcases ha with rfl | ha
      · rfl
      · exact ih a ha

lemma fetchPhase_trace_shape (w : World) (cfg : RepoCfg) :
    ∀ rs : List RemoteCfg, (fetchPhase w cfg rs).trace = []
      ∨ ∃ n tl, (fetchPhase w cfg rs).trace = Act.fetchA n :: tl := by
  intro rs
  cases rs with
  | nil => exact Or.inl rfl
  | cons rm rest =>
    right
    unfold fetchPhase
    split_ifs <;> exact ⟨rm.name, _, rfl⟩

lemma fetchPhase_listPreceded (w : World) (cfg : RepoCfg) :
    ∀ rs : List RemoteCfg, listPrecededByFetch (fetchPhase w cfg rs).trace = true := by
  intro rs
  induction rs with
  | nil => rfl
  | cons rm rest ih =>
    unfold fetchPhase
    split_ifs <;>
      simp only [List.cons_append, List.nil_append]
    · rfl
    · simp [listPrecededByFetch]
    · simp [listPrecededByFetch, ih]
    · rcases fetchPhase_trace_shape w cfg rest with h1 | ⟨n, tl, h1⟩ <;> rw [h1]
      · rfl
      · rw [h1] at ih
        simpa [listPrecededByFetch] using ih

lemma tagPhase_spec (w : World) (cfg : RepoCfg) :
    ∀ ts : List Reference, (tagPhase w cfg ts).2 = false →
      (tagPhase w cfg ts).1 = ts.map (fun t => Act.pushTagA cfg.targetName [tagRefSpec t]) := by
  intro ts
  induction ts with
  | nil => intro _; rfl
  | cons t rest ih =>
    intro h
    unfold tagPhase at h ⊢
    split_ifs at h ⊢
    simp_all

lemma tagPhase_happy (w : World) (cfg : RepoCfg) (hpu : ∀ sp, w.pushRes sp ≠ GitRes.err) :
    ∀ ts : List Reference, (tagPhase w cfg ts).2 = false := by
  intro ts
  induction ts with
  | nil => rfl
  | cons t rest ih =>
    unfold tagPhase
    split_ifs <;> simp_all

lemma runRepo_happy (w : World) (cfg : RepoCfg) (hw : happyOps w) :
    (runRepo w cfg).exited = false := by
  obtain ⟨ho, hf, hl, hc, hh, hp, hr, hpu, hs⟩ := hw
  unfold runRepo
  rw [ho]
  simp only [Bool.false_eq_true, if_false]
  rw [if_neg (by simp [fetchPhase_happy w cfg hf hl cfg.remotes])]
  rw [if_neg (by simp [runBranches_happy w cfg hc hh hp hr hpu hs])]
  simp [tagPhase_happy w cfg hpu]

lemma runRepo_decomp (w : World) (cfg : RepoCfg) (hE : (runRepo w cfg).exited = false) :
    w.openFails = false
    ∧ (fetchPhase w cfg cfg.remotes).exited = false
    ∧ (runBranches w cfg (fetchPhase w cfg cfg.remotes).branches cfg.init).exited = false
    ∧ (tagPhase w cfg
        (runBranches w cfg (fetchPhase w cfg cfg.remotes).branches cfg.init).state.tags).2 = false
    ∧ (runRepo w cfg).trace =
        (if w.getRemoteErr then [Act.createRemoteA cfg.targetName cfg.targetUrl] else [])
        ++ (fetchPhase w cfg cfg.remotes).trace
        ++ (runBranches w cfg (fetchPhase w cfg cfg.remotes).branches cfg.init).trace
        ++ (tagPhase w cfg
            (runBranches w cfg (fetchPhase w cfg cfg.remotes).branches cfg.init).state.tags).1 := by
  unfold runRepo at hE ⊢
  cases ho : w.openFails with
  | true => simp [ho] at hE
  | false =>
    simp only [ho, Bool.false_eq_true, if_false] at hE ⊢
    cases hfx : (fetchPhase w cfg cfg.remotes).exited with
    | true => rw [if_pos (by simp [hfx])] at hE; cases hE
    | false =>
      rw [if_neg (by simp [hfx])] at hE ⊢
      cases hbx : (runBranches w cfg (fetchPhase w cfg cfg.remotes).branches cfg.init).exited with
      | true => rw [if_pos (by simp [hbx])] at hE; cases hE
      | false =>
        rw [if_neg (by simp [hbx])] at hE ⊢
        exact ⟨by trivial, rfl, rfl, hE, by simp [List.append_assoc]⟩

lemma syncBranch_head_create (w : World) (cfg : RepoCfg) (r : Reference) (st : GitState)
    (hm : repoGetLocalBranchForRemote st.branches r = none) :
    (syncBranch w cfg r st).trace.head? = some (Act.checkoutCreateA r.name r.hash) := by
  rw [syncBranch_create_eq w cfg r st hm]
  split_ifs <;> rfl

lemma syncBranch_head_update (w : World) (cfg : RepoCfg) (r : Reference) (st : GitState)
    (lb : Reference) (hm : repoGetLocalBranchForRemote st.branches r = some lb) :
    (syncBranch w cfg r st).trace.head? = some (Act.checkoutA lb.name) := by
  rw [syncBranch_update_eq w cfg r st lb hm]
  split_ifs <;> rfl

lemma lookup_mem_nodup (T : List (String × String)) (b v : String)
    (hmem : (b, v) ∈ T) (hnd : (T.map Prod.fst).Nodup) : T.lookup b = some v := by
  induction T with
  | nil => cases hmem
  | cons p rest ih =>
    rw [List.map_cons, List.nodup_cons] at hnd
    rcases List.mem_cons.1 hmem with rfl | hmem'
    · simp [List.lookup]
    · have hne : (b == p.1) = false := by
        rw [beq_eq_false_iff_ne]
        intro he
        exact hnd.1 (he ▸ List.mem_map_of_mem Prod.fst hmem')
      cases p with
      | mk k vv =>
        rw [List.lookup]
        simp only at hne
        rw [hne]
        exact ih hmem' hnd.2

lemma lookup_not_mem (T : List (String × String)) (b : String)
    (h : ∀ v', (b, v') ∉ T) : T.lookup b = none := by
  induction T with
  | nil => rfl
  | cons p rest ih =>
    cases p with
    | mk k vv =>
      have hne : (b == k) = false := by
        rw [beq_eq_false_iff_ne]
        rintro rfl
        exact h vv (List.mem_cons_self _ _)
      rw [List.lookup, hne]
      exact ih (fun v' hv' => h v' (List.mem_cons_of_mem _ hv'))

lemma fetchPhase_reconOf (w : World) (cfg : RepoCfg) :
    ∀ rs : List RemoteCfg, ∀ a ∈ (fetchPhase w cfg rs).trace, reconOf a = none := by
  intro rs
  induction rs with
  | nil => intro a ha; cases ha
  | cons rm rest ih =>
    intro a ha
    unfold fetchPhase at ha
    split_ifs at ha <;>
      simp only [List.cons_append, List.nil_append, List.mem_cons, List.mem_append,
        List.not_mem_nil, or_false] at ha
    · subst ha; rfl
    · rcases ha with rfl | rfl <;> rfl
    · rcases ha with rfl | rfl | ha
      · rfl
      · rfl
      · exact ih a ha
    · rcases ha with rfl | ha
      · rfl
      · exact ih a ha

lemma fetchPhase_recon_nil (w : World) (cfg : RepoCfg) (rs : List RemoteCfg) :
    reconTrace (fetchPhase w cfg rs).trace = [] := by
  unfold reconTrace
  rw [List.filterMap_eq_nil_iff]
  exact fetchPhase_reconOf w cfg rs

lemma sourceBranches_nil (cfg : RepoCfg) (h : ∀ rm ∈ cfg.remotes, rm.name ≠ cfg.sourceName) :
    sourceBranches cfg = [] := by
  unfold sourceBranches
  rw [List.filter_eq_nil_iff.2 (by intro rm hrm; simp [h rm hrm])]
  rfl

lemma sourceBranches_mem (cfg : RepoCfg) (r : Reference) (hr : r ∈ sourceBranches cfg) :
    ∃ rm ∈ cfg.remotes, rm.name = cfg.sourceName ∧ r ∈ rm.refs := by
  unfold sourceBranches at hr
  rcases List.mem_flatten.1 hr with ⟨l, hl, hrl⟩
  rcases List.mem_map.1 hl with ⟨rm, hrm, rfl⟩
  rcases List.mem_filter.1 hrm with ⟨hrm', hname⟩
  exact ⟨rm, hrm', by simpa using hname, (List.mem_filter.1 hrl).1⟩

lemma afterCheckout_push_err (w : World) (cfg : RepoCfg) (rb lb : Reference) (st : GitState)
    (hp : w.pullRes rb.name ≠ GitRes.err) (hr : w.resetFails = false)
    (hpu : ∀ sp, w.pushRes sp = GitRes.err) :
    (afterCheckout w cfg rb lb st).exited = true := by
  unfold afterCheckout
  rw [if_neg hp, hr]
  simp only [Bool.false_eq_true, if_false]
  rw [if_pos (hpu _)]

lemma syncBranch_push_err (w : World) (cfg : RepoCfg) (r : Reference) (st : GitState)
    (hc : ∀ n, w.checkoutFails n = false) (hh : ∀ x, w.headAfterCheckout x = x)
    (hp : ∀ n, w.pullRes n ≠ GitRes.err) (hr : w.resetFails = false)
    (hpu : ∀ sp, w.pushRes sp = GitRes.err) :
    (syncBranch w cfg r st).exited = true := by
  cases hm : repoGetLocalBranchForRemote st.branches r
  case none =>
    rw [syncBranch_create_eq w cfg r st hm]
    rw [if_neg (by simp [hc]), hh r]
    simp only [bne_self_eq_false, Bool.or_self, Bool.false_eq_true, if_false]
    exact afterCheckout_push_err w cfg r r _ (hp _) hr hpu
  case some lb =>
    rw [syncBranch_update_eq w cfg r st lb hm]
    rw [if_neg (by simp [hc])]
    exact afterCheckout_push_err w cfg r lb _ (hp _) hr hpu

lemma afterCheckout_reset_err (w : World) (cfg : RepoCfg) (rb lb : Reference) (st : GitState)
    (hp : w.pullRes rb.name ≠ GitRes.err) (hr : w.resetFails = true) :
    (afterCheckout w cfg rb lb st).exited = true := by
  unfold afterCheckout
  rw [if_neg hp, hr]
  simp

lemma syncBranch_reset_err (w : World) (cfg : RepoCfg) (r : Reference) (st : GitState)
    (hc : ∀ n, w.checkoutFails n = false) (hh : ∀ x, w.headAfterCheckout x = x)
    (hp : ∀ n, w.pullRes n ≠ GitRes.err) (hr : w.resetFails = true) :
    (syncBranch w cfg r st).exited = true := by
  cases hm : repoGetLocalBranchForRemote st.branches r
  case none =>
    rw [syncBranch_create_eq w cfg r st hm]
    rw [if_neg (by simp [hc]), hh r]
    simp only [bne_self_eq_false, Bool.or_self, Bool.false_eq_true, if_false]
    exact afterCheckout_reset_err w cfg r r _ (hp _) hr
  case some lb =>
    rw [syncBranch_update_eq w cfg r st lb hm]
    rw [if_neg (by simp [hc])]
    exact afterCheckout_reset_err w cfg r lb _ (hp _) hr

lemma afterCheckout_status_err (w : World) (cfg : RepoCfg) (rb lb : Reference) (st : GitState)
    (hp : w.pullRes rb.name ≠ GitRes.err) (hr : w.resetFails = false)
    (hpu : ∀ sp, w.pushRes sp ≠ GitRes.err) (hs : w.statusFails = true) :
    (afterCheckout w cfg rb lb st).exited = true := by
  unfold afterCheckout
  rw [if_neg hp, hr]
  simp only [Bool.false_eq_true, if_false]
  rw [if_neg (hpu _), hs]
  simp

lemma syncBranch_status_err (w : World) (cfg : RepoCfg) (r : Reference) (st : GitState)
    (hc : ∀ n, w.checkoutFails n = false) (hh : ∀ x, w.headAfterCheckout x = x)
    (hp : ∀ n, w.pullRes n ≠ GitRes.err) (hr : w.resetFails = false)
    (hpu : ∀ sp, w.pushRes sp ≠ GitRes.err) (hs : w.statusFails = true) :
    (syncBranch w cfg r st).exited = true := by
  cases hm : repoGetLocalBranchForRemote st.branches r
  case none =>
    rw [syncBranch_create_eq w cfg r st hm]
    rw [if_neg (by simp [hc]), hh r]
    simp only [bne_self_eq_false, Bool.or_self, Bool.false_eq_true, if_false]
    exact afterCheckout_status_err w cfg r r _ (hp _) hr hpu hs
  case some lb =>
    rw [syncBranch_update_eq w cfg r st lb hm]
    rw [if_neg (by simp [hc])]
    exact afterCheckout_status_err w cfg r lb _ (hp _) hr hpu hs

lemma syncBranch_checkout_err (w : World) (cfg : RepoCfg) (r : Reference) (st : GitState)
    (hc : ∀ n, w.checkoutFails n = true) :
    (syncBranch w cfg r st).exited = true := by
  cases hm : repoGetLocalBranchForRemote st.branches r
  case none =>
    rw [syncBranch_create_eq w cfg r st hm, if_pos (hc r.name)]
  case some lb =>
    rw [syncBranch_update_eq w cfg r st lb hm, if_pos (hc lb.name)]

lemma fetchPhase_fetch_err (w : World) (cfg : RepoCfg) (rm : RemoteCfg)
    (rrest : List RemoteCfg) (he : w.fetchRes rm.name = GitRes.err) :
    (fetchPhase w cfg (rm :: rrest)).exited = true := by
  unfold fetchPhase
  rw [if_pos he]

lemma fetchPhase_list_err (w : World) (cfg : RepoCfg) (rm : RemoteCfg)
    (rrest : List RemoteCfg) (he : w.fetchRes rm.name ≠ GitRes.err)
    (hname : rm.name = cfg.sourceName) (hl : w.listFails rm.name = true) :
    (fetchPhase w cfg (rm :: rrest)).exited = true := by
  unfold fetchPhase
  rw [if_neg he, if_pos (by simp [hname]), if_pos hl]

lemma runRepo_exits_of_fetchPhase (w : World) (cfg : RepoCfg) (ho : w.openFails = false)
    (hF : (fetchPhase w cfg cfg.remotes).exited = true) :
    (runRepo w cfg).exited = true := by
  simp [runRepo, ho, hF]

lemma runRepo_exits_of_runBranches (w : World) (cfg : RepoCfg) (ho : w.openFails = false)
    (hF : (fetchPhase w cfg cfg.remotes).exited = false)
    (hB : (runBranches w cfg (fetchPhase w cfg cfg.remotes).branches cfg.init).exited
      = true) :
    (runRepo w cfg).exited = true := by
  simp [runRepo, ho, hF, hB]

lemma runRepo_open_err (w : World) (cfg : RepoCfg) (ho : w.openFails = true) :
    (runRepo w cfg).exited = true := by
  simp [runRepo, ho]

lemma tagPhase_push_err (w : World) (cfg : RepoCfg) (t : Reference) (ts : List Reference)
    (he : w.pushRes [tagRefSpec t] = GitRes.err) :
    (tagPhase w cfg (t :: ts)).2 = true := by
  unfold tagPhase
  rw [if_pos he]

lemma runAll_cons_exited (w : World) (cfg : RepoCfg) (rest : List (World × RepoCfg))
    (h : (runRepo w cfg).exited = true) :
    runAll ((w, cfg) :: rest) = ([(runRepo w cfg).trace], true) := by
  simp [runAll, h]

lemma afterCheckout_ext (w w' : World) (cfg : RepoCfg)
    (hp : w'.pullRes = w.pullRes) (hr : w'.resetFails = w.resetFails)
    (hpu : w'.pushRes = w.pushRes) (hs : w'.statusFails = w.statusFails)
    (rb lb : Reference) (st : GitState) :
    afterCheckout w' cfg rb lb st = afterCheckout w cfg rb lb st := by
  unfold afterCheckout
  rw [hp, hr, hpu, hs]

lemma syncBranch_ext (w w' : World) (cfg : RepoCfg)
    (hc : w'.checkoutFails = w.checkoutFails) (hh : w'.headAfterCheckout = w.headAfterCheckout)
    (hp : w'.pullRes = w.pullRes) (hr : w'.resetFails = w.resetFails)
    (hpu : w'.pushRes = w.pushRes) (hs : w'.statusFails = w.statusFails)
    (r : Reference) (st : GitState) :
    syncBranch w' cfg r st = syncBranch w cfg r st := by
  unfold syncBranch
  rw [hc, hh]
  cases repoGetLocalBranchForRemote st.branches r <;>
    simp only [afterCheckout_ext w w' cfg hp hr hpu hs]

lemma runBranches_ext (w w' : World) (cfg : RepoCfg)
    (hc : w'.checkoutFails = w.checkoutFails) (hh : w'.headAfterCheckout = w.headAfterCheckout)
    (hp : w'.pullRes = w.pullRes) (hr : w'.resetFails = w.resetFails)
    (hpu : w'.pushRes = w.pushRes) (hs : w'.statusFails = w.statusFails) :
    ∀ (bs : List Reference) (st : GitState),
      runBranches w' cfg bs st = runBranches w cfg bs st := by
  intro bs
  induction bs with
  | nil => intro st; rfl
  | cons r rest ih =>
    intro st
    unfold runBranches
    simp only [syncBranch_ext w w' cfg hc hh hp hr hpu hs, ih]

lemma fetchPhase_ext (w w' : World) (cfg : RepoCfg)
    (hf : w'.fetchRes = w.fetchRes) (hl : w'.listFails = w.listFails) :
    ∀ rs : List RemoteCfg, fetchPhase w' cfg rs = fetchPhase w cfg rs := by
  intro rs
  induction rs with
  | nil => rfl
  | cons rm rest ih =>
    unfold fetchPhase
    rw [hf, hl, ih]

lemma tagPhase_ext (w w' : World) (cfg : RepoCfg) (hpu : w'.pushRes = w.pushRes) :
    ∀ ts : List Reference, tagPhase w' cfg ts = tagPhase w cfg ts := by
  intro ts
  induction ts with
  | nil => rfl
  | cons t rest ih =>
    unfold tagPhase
    rw [hpu, ih]

lemma runRepo_ext (w w' : World) (cfg : RepoCfg)
    (ho : w'.openFails = w.openFails) (hg : w'.getRemoteErr = w.getRemoteErr)
    (hf : w'.fetchRes = w.fetchRes) (hl : w'.listFails = w.listFails)
    (hc : w'.checkoutFails = w.checkoutFails) (hh : w'.headAfterCheckout = w.headAfterCheckout)
    (hp : w'.pullRes = w.pullRes) (hr : w'.resetFails = w.resetFails)
    (hpu : w'.pushRes = w.pushRes) (hs : w'.statusFails = w.statusFails) :
    runRepo w' cfg = runRepo w cfg := by
  unfold runRepo
  rw [ho, hg, fetchPhase_ext w w' cfg hf hl]
  simp only [runBranches_ext w w' cfg hc hh hp hr hpu hs, tagPhase_ext w w' cfg hpu]

/-- C2: for every remote branch being reconciled, the update path (checkout
of the existing local branch) is taken exactly when the full name of some
local branch is string-equal to the advertised
name, and the create path is taken exactly when no such local branch
exists; matching is by raw reference-name equality only. -/
theorem updatePath_iff_name_match (w : World) (cfg : RepoCfg) (r : Reference) (st : GitState) :
    ((syncBranch w cfg r st).trace.head? = some (Act.checkoutA r.name)
       ↔ ∃ lb ∈ st.branches, lb.name = r.name)
    ∧ ((syncBranch w cfg r st).trace.head? = some (Act.checkoutCreateA r.name r.hash)
       ↔ ¬ ∃ lb ∈ st.branches, lb.name = r.name) := by
  cases hm : repoGetLocalBranchForRemote st.branches r
  case none =>
    have hnone := (rgl_none_iff st.branches r).1 hm
    have hne : ¬ ∃ lb ∈ st.branches, lb.name = r.name := by
      rintro ⟨lb, hlb, he⟩
      exact hnone lb hlb he
    rw [syncBranch_head_create w cfg r st hm]
    exact ⟨iff_of_false (by simp) (fun h => hne h), iff_of_true rfl hne⟩
  case some lb =>
    have hlb := rgl_some_mem st.branches r lb hm
    have hex : ∃ x ∈ st.branches, x.name = r.name := ⟨lb, hlb.1, hlb.2⟩
    rw [syncBranch_head_update w cfg r st lb hm, hlb.2]
    exact ⟨iff_of_true rfl hex, iff_of_false (by simp) (fun h => h hex)⟩

lemma syncBranch_push_mem (w : World) (cfg : RepoCfg) (r : Reference) (st : GitState)
    (rm : String) (specs : List String)
    (hmem : Act.pushBranchA rm specs ∈ (syncBranch w cfg r st).trace) :
    rm = cfg.targetName ∧ specs = [pushRefSpec r.name cfg.mapping r.name] := by
  cases hm : repoGetLocalBranchForRemote st.branches r
  case none =>
    rw [syncBranch_create_eq w cfg r st hm] at hmem
    split_ifs at hmem with h1 h2
    · simp at hmem
    · simp at hmem
    · have hf := Bool.or_eq_false_iff.1 (Bool.eq_false_iff.2 h2)
      have heq : w.headAfterCheckout r = r :=
        refEq_of_parts _ _ (by simpa using hf.2) (by simpa using hf.1)
      rw [heq] at hmem
      simp only [List.mem_cons] at hmem
      rcases hmem with h | hmem
      · cases h
      · rcases afterCheckout_trace_cases w cfg r r
            { st with branches := setBranch st.branches r.name r.hash, headName := r.name }
          with ht | ht | ht <;> rw [ht] at hmem <;> simp at hmem
        exact hmem
  case some lb =>
    have hlb := rgl_some_mem st.branches r lb hm
    rw [syncBranch_update_eq w cfg r st lb hm] at hmem
    rw [← hlb.2]
    split_ifs at hmem with h1
    · simp at hmem
    · simp only [List.mem_cons] at hmem
      rcases hmem with h | hmem
      · cases h
      · rcases afterCheckout_trace_cases w cfg r lb { st with headName := lb.name }
          with ht | ht | ht <;> rw [ht] at hmem <;> simp at hmem
        rw [hlb.2] at hmem
        rw [hlb.2]
        exact hmem

/-- C4: `mapBranch` returns the mapped name when the branch is a key of the
mapping table and the name itself otherwise; every branch push the
reconciliation performs targets the configured target remote with exactly
one force ref-spec of the form
`+<local fully-qualified name>:refs/heads/<mapBranch(remote short name)>`;
in particular with mapping master-to-main and remote branch
`refs/heads/master` the ref-spec is `+refs/heads/master:refs/heads/main`. -/
theorem mapBranch_table_and_refspec (T : List (String × String)) (b v : String)
    (w : World) (cfg : RepoCfg) (r : Reference) (st : GitState) (rm : String)
    (specs : List String) :
    ((T.map Prod.fst).Nodup → (b, v) ∈ T → mapBranch T b = v)
    ∧ ((∀ v', (b, v') ∉ T) → mapBranch T b = b)
    ∧ (Act.pushBranchA rm specs ∈ (syncBranch w cfg r st).trace →
        rm = cfg.targetName
        ∧ specs = ["+" ++ r.name ++ ":refs/heads/" ++ mapBranch cfg.mapping (refShort r.name)])
    ∧ pushRefSpec "refs/heads/master" [("master", "main")] "refs/heads/master"
        = "+refs/heads/master:refs/heads/main" := by
  refine ⟨?_, ?_, ?_, by decide⟩
  · intro hnd hmem
    unfold mapBranch
    rw [lookup_mem_nodup T b v hmem hnd]
  · intro h
    unfold mapBranch
    rw [lookup_not_mem T b h]
  · intro hmem
    have hpm := syncBranch_push_mem w cfg r st rm specs hmem
    exact ⟨hpm.1, by rw [hpm.2]; rfl⟩

/-- Witness for C4 at the scenario of the spec: the mapping sends `master` to
`main`, leaves unmapped names unchanged, and the scenario branch push
uses the ref-spec `+refs/heads/master:refs/heads/main`. -/
theorem mapBranch_table_and_refspec_witness :
    mapBranch [("master", "main")] "master" = "main"
    ∧ mapBranch [("master", "main")] "develop" = "develop"
    ∧ ("github" = scenCfg.targetName
        ∧ ["+refs/heads/master:refs/heads/main"]
            = ["+" ++ "refs/heads/master" ++ ":refs/heads/"
                ++ mapBranch scenCfg.mapping (refShort "refs/heads/master")]) := by
  refine ⟨?_, ?_, ?_⟩
  · exact (mapBranch_table_and_refspec [("master", "main")] "master" "main"
      happyWorld scenCfg ⟨"refs/heads/master", "abc123"⟩ scenCfg.init "github" []).1
      (by decide) (by decide)
  · exact (mapBranch_table_and_refspec [("master", "main")] "develop" "x"
      happyWorld scenCfg ⟨"refs/heads/master", "abc123"⟩ scenCfg.init "github" []).2.1
      (by
        intro v' hv'
        have h2 : "develop" = "master" := congrArg Prod.fst (List.mem_singleton.1 hv')
        exact absurd h2 (by decide))
  · exact (mapBranch_table_and_refspec [("master", "main")] "master" "main"
      happyWorld scenCfg ⟨"refs/heads/master", "abc123"⟩ scenCfg.init "github"
      ["+refs/heads/master:refs/heads/main"]).2.2.1 (by decide)

/-- C1 counterexample: with local `master` at `aaa` and the remote
advertising `master` at `bbb`, the update path checks out, pulls (moving
the branch to `bbb`), then hard-resets back to the pre-pull snapshot
`aaa`; immediately before the push the local branch is at `aaa`, not at
the advertised `bbb`. -/
theorem updateHash_before_push_cex :
    (runRepo happyWorld cexCfg).exited = false
    ∧ (runRepo happyWorld cexCfg).trace
      = [Act.fetchA "origin", Act.listA "origin", Act.checkoutA "refs/heads/master",
         Act.pullA "origin" "refs/heads/master", Act.resetA "aaa",
         Act.pushBranchA "github" ["+refs/heads/master:refs/heads/master"]]
    ∧ sourceBranches cexCfg = [⟨"refs/heads/master", "bbb"⟩]
    ∧ branchHash (runRepo happyWorld cexCfg).state.branches "refs/heads/master" = some "aaa"
    ∧ "aaa" ≠ "bbb" := by
  refine ⟨by decide, by decide, by decide, by decide, by decide⟩

/-- C1 amended: on the update path the reconciliation performs, in order,
forced checkout of the existing local branch, a single-branch force pull
of that reference from the source remote, and a hard reset to the commit
recorded for the matched local branch before the pull (which equals the
local HEAD immediately after checkout); immediately before the branch
push the local branch hash equals that recorded pre-pull hash, which
equals the advertised remote hash only when the branch was already up
to date. -/
theorem updatePath_resets_to_prePull_hash (w : World) (cfg : RepoCfg) (r : Reference)
    (st : GitState) (lb : Reference)
    (hm : repoGetLocalBranchForRemote st.branches r = some lb)
    (hE : (syncBranch w cfg r st).exited = false) :
    (syncBranch w cfg r st).trace
      = [Act.checkoutA lb.name, Act.pullA cfg.sourceName r.name, Act.resetA lb.hash,
         Act.pushBranchA cfg.targetName [pushRefSpec lb.name cfg.mapping r.name]]
    ∧ branchHash (syncBranch w cfg r st).state.branches r.name = some lb.hash := by
  have hlb := rgl_some_mem st.branches r lb hm
  have hs := syncBranch_spec_update w cfg r st lb hm hE
  exact ⟨hs.1, hlb.2 ▸ hs.2.1⟩

/-- Witness for the amended C1 on the concrete stale repository. -/
theorem updatePath_resets_to_prePull_hash_witness :
    (syncBranch happyWorld cexCfg ⟨"refs/heads/master", "bbb"⟩ cexCfg.init).trace
      = [Act.checkoutA "refs/heads/master", Act.pullA "origin" "refs/heads/master",
         Act.resetA "aaa", Act.pushBranchA "github" ["+refs/heads/master:refs/heads/master"]]
    ∧ branchHash (syncBranch happyWorld cexCfg ⟨"refs/heads/master", "bbb"⟩
        cexCfg.init).state.branches "refs/heads/master" = some "aaa" := by
  have h := updatePath_resets_to_prePull_hash happyWorld cexCfg
    ⟨"refs/heads/master", "bbb"⟩ cexCfg.init ⟨"refs/heads/master", "aaa"⟩
    (by decide) (by decide)
  exact ⟨by rw [h.1]; decide, h.2⟩

/-- C5 counterexample: in the concrete run the fetch of the source remote
is the first collaborator call and its remote-listing call is the second,
so the listing used for matching happens after a fetch mutation, not
before. -/
theorem listing_not_preFetch_cex :
    (runRepo happyWorld cexCfg).trace.findIdx? (fun a => isFetchA a) = some 0
    ∧ (runRepo happyWorld cexCfg).trace.findIdx? (fun a => isListA a) = some 1 := by
  refine ⟨by decide, by decide⟩

/-- C5 amended: the remote-listing call that produces the branches to sync
is made immediately after fetching that same remote (and hence after the
fetch mutations of every earlier remote), not before any fetch. -/
theorem listing_follows_fetch (w : World) (cfg : RepoCfg) (rs : List RemoteCfg) :
    listPrecededByFetch (fetchPhase w cfg rs).trace = true :=
  fetchPhase_listPreceded w cfg rs

/-- C3: in a run that completes, the spec-level plan is, per remote branch
of the source remote in listing order, exactly one create-or-update action
immediately followed by exactly one push action for that branch, with all
tag pushes after all branch actions; with zero existing local branches
(and distinctly named remote branches) every pair is a create followed by
its push, one pair per remote branch. -/
theorem perBranch_pairs_then_tags (w : World) (cfg : RepoCfg)
    (hE : (runRepo w cfg).exited = false) :
    (∃ blocks : List (List RAction),
        reconTrace (runRepo w cfg).trace
          = blocks.flatten
            ++ cfg.init.tags.map (fun t => RAction.pushTag cfg.targetName [tagRefSpec t])
        ∧ List.Forall₂ (blockFor cfg) (sourceBranches cfg) blocks)
    ∧ (cfg.init.branches = [] → ((sourceBranches cfg).map Reference.name).Nodup →
        reconTrace (runRepo w cfg).trace
          = ((sourceBranches cfg).map (fun r =>
              [RAction.createLocal r.name r.hash,
               RAction.pushBranch cfg.targetName [pushRefSpec r.name cfg.mapping r.name]])).flatten
            ++ cfg.init.tags.map (fun t => RAction.pushTag cfg.targetName [tagRefSpec t])) := by
  obtain ⟨ho, hfx, hbx, htx, htr⟩ := runRepo_decomp w cfg hE
  have hbr : (fetchPhase w cfg cfg.remotes).branches = sourceBranches cfg :=
    fetchPhase_branches w cfg cfg.remotes hfx
  have hprov : reconTrace
      (if w.getRemoteErr then [Act.createRemoteA cfg.targetName cfg.targetUrl] else []) = [] := by
    cases hg : w.getRemoteErr <;> simp [hg, reconTrace, reconOf]
  have htags : (runBranches w cfg (fetchPhase w cfg cfg.remotes).branches
      cfg.init).state.tags = cfg.init.tags :=
    runBranches_tags w cfg _ _
  have htagtr : reconTrace (tagPhase w cfg (runBranches w cfg
        (fetchPhase w cfg cfg.remotes).branches cfg.init).state.tags).1
      = cfg.init.tags.map (fun t => RAction.pushTag cfg.targetName [tagRefSpec t]) := by
    rw [tagPhase_spec w cfg _ htx, htags]
    unfold reconTrace
    rw [List.filterMap_map]
    exact congrFun (List.filterMap_eq_map
      (fun t => RAction.pushTag cfg.targetName [tagRefSpec t])) cfg.init.tags
  constructor
  · obtain ⟨blocks, hb1, hb2⟩ :=
      runBranches_blocks w cfg (fetchPhase w cfg cfg.remotes).branches cfg.init hbx
    refine ⟨blocks, ?_, hbr ▸ hb2⟩
    rw [htr]
    rw [reconTrace_append, reconTrace_append, reconTrace_append, hprov,
      fetchPhase_recon_nil, hb1, htagtr]
    simp
  · intro hinit hnodup
    rw [htr]
    rw [reconTrace_append, reconTrace_append, reconTrace_append, hprov,
      fetchPhase_recon_nil, htagtr]
    rw [runBranches_creates w cfg _ cfg.init hbx (by simp [hinit]) (by rw [hbr]; exact hnodup)]
    rw [hbr]
    simp

/-- Witness for C3 at the scenario repository of the spec (no local branches,
one remote branch, one tag). -/
theorem perBranch_pairs_then_tags_witness :
    reconTrace (runRepo happyWorld scenCfg).trace
      = ((sourceBranches scenCfg).map (fun r =>
          [RAction.createLocal r.name r.hash,
           RAction.pushBranch scenCfg.targetName
             [pushRefSpec r.name scenCfg.mapping r.name]])).flatten
        ++ scenCfg.init.tags.map (fun t => RAction.pushTag scenCfg.targetName [tagRefSpec t]) :=
  (perBranch_pairs_then_tags happyWorld scenCfg (by decide)).2 (by decide) (by decide)

lemma happyWorld_ops : happyOps happyWorld := by
  refine ⟨rfl, ?_, ?_, ?_, ?_, ?_, rfl, ?_, rfl⟩ <;> intro x <;> simp [happyWorld]

/-- C6: already-up-to-date results from fetch, pull and push are treated
as success (a run whose operations only succeed or report
already-up-to-date finishes with no exit), while every other error from
any Git operation is fatal: a repository-open, fetch, remote-listing,
checkout, pull, hard-reset, branch-push, status or tag-push error makes
the affected phase exit, a failed fetch phase or branch phase makes the
whole run exit, and the first exit leaves the remaining branches and
repositories unprocessed. -/
theorem autd_success_other_errors_fatal (w wP wB w2 : World) (cfg : RepoCfg)
    (r : Reference) (st : GitState) (rest : List Reference)
    (rps : List (World × RepoCfg)) (rm : RemoteCfg) (rrest : List RemoteCfg)
    (t : Reference) (ts : List Reference) (hw : happyOps w) :
    (runRepo w cfg).exited = false
    ∧ (runRepo (setAllFetchAutd w) cfg).exited = false
    ∧ (runRepo (setAllPullAutd w) cfg).exited = false
    ∧ (runRepo (setAllPushAutd w) cfg).exited = false
    ∧ (runRepo { w with openFails := true } cfg).exited = true
    ∧ (fetchPhase (setAllFetchErr w) cfg (rm :: rrest)).exited = true
    ∧ (rm.name = cfg.sourceName →
        (fetchPhase (setAllListErr w) cfg (rm :: rrest)).exited = true)
    ∧ (wP.openFails = false → (fetchPhase wP cfg cfg.remotes).exited = true →
        (runRepo wP cfg).exited = true)
    ∧ (syncBranch (setAllCheckoutErr w) cfg r st).exited = true
    ∧ (syncBranch (setPullErr w r.name) cfg r st).exited = true
    ∧ runBranches (setPullErr w r.name) cfg (r :: rest) st
        = syncBranch (setPullErr w r.name) cfg r st
    ∧ (syncBranch (setResetErr w) cfg r st).exited = true
    ∧ (syncBranch (setAllPushErr w) cfg r st).exited = true
    ∧ (syncBranch (setStatusErr w) cfg r st).exited = true
    ∧ (tagPhase (setAllPushErr w) cfg (t :: ts)).2 = true
    ∧ (wB.openFails = false → (fetchPhase wB cfg cfg.remotes).exited = false →
        (runBranches wB cfg (fetchPhase wB cfg cfg.remotes).branches cfg.init).exited
          = true →
        (runRepo wB cfg).exited = true)
    ∧ ((runRepo w2 cfg).exited = true →
        runAll ((w2, cfg) :: rps) = ([(runRepo w2 cfg).trace], true)) := by
  obtain ⟨ho, hf, hl, hc, hh, hp, hr, hpu, hs⟩ := hw
  refine ⟨runRepo_happy w cfg ⟨ho, hf, hl, hc, hh, hp, hr, hpu, hs⟩, ?_, ?_, ?_,
    runRepo_open_err _ cfg rfl,
    fetchPhase_fetch_err _ cfg rm rrest rfl,
    ?_,
    fun hO hF => runRepo_exits_of_fetchPhase wP cfg hO hF,
    syncBranch_checkout_err _ cfg r st (fun n => rfl),
    syncBranch_exited_of_pull_err _ cfg r st (by simp [setPullErr]),
    runBranches_cons_exited _ cfg r rest st
      (syncBranch_exited_of_pull_err _ cfg r st (by simp [setPullErr])),
    syncBranch_reset_err _ cfg r st hc hh hp rfl,
    syncBranch_push_err _ cfg r st hc hh hp hr (fun sp => by simp [setAllPushErr]),
    syncBranch_status_err _ cfg r st hc hh hp hr hpu rfl,
    tagPhase_push_err _ cfg t ts rfl,
    fun hO hF hB => runRepo_exits_of_runBranches wB cfg hO hF hB,
    fun h => runAll_cons_exited w2 cfg rps h⟩
  · exact runRepo_happy _ cfg
      ⟨ho, fun n => by simp [setAllFetchAutd], hl, hc, hh, hp, hr, hpu, hs⟩
  · exact runRepo_happy _ cfg
      ⟨ho, hf, hl, hc, hh, fun n => by simp [setAllPullAutd], hr, hpu, hs⟩
  · exact runRepo_happy _ cfg
      ⟨ho, hf, hl, hc, hh, hp, hr, fun sp => by simp [setAllPushAutd], hs⟩
  · intro hname
    exact fetchPhase_list_err _ cfg rm rrest (hf rm.name) hname rfl

/-- Witness for C6 on the concrete repository: already-up-to-date runs
finish cleanly; open, fetch, remote-listing, checkout, pull, reset,
branch-push, status and tag-push errors each make the run (or the phase
performing them) exit; a pull error stops the branch loop at the first
branch, and a failed repository leaves later repositories unprocessed. -/
theorem autd_success_other_errors_fatal_witness :
    (runRepo happyWorld cexCfg).exited = false
    ∧ (runRepo (setAllFetchAutd happyWorld) cexCfg).exited = false
    ∧ (runRepo (setAllPullAutd happyWorld) cexCfg).exited = false
    ∧ (runRepo (setAllPushAutd happyWorld) cexCfg).exited = false
    ∧ (runRepo { happyWorld with openFails := true } cexCfg).exited = true
    ∧ (fetchPhase (setAllFetchErr happyWorld) cexCfg
        [⟨"origin", [⟨"refs/heads/master", "bbb"⟩]⟩]).exited = true
    ∧ (fetchPhase (setAllListErr happyWorld) cexCfg
        [⟨"origin", [⟨"refs/heads/master", "bbb"⟩]⟩]).exited = true
    ∧ (runRepo (setAllFetchErr happyWorld) cexCfg).exited = true
    ∧ (syncBranch (setAllCheckoutErr happyWorld) cexCfg
        ⟨"refs/heads/master", "bbb"⟩ cexCfg.init).exited = true
    ∧ (syncBranch (setPullErr happyWorld "refs/heads/master") cexCfg
        ⟨"refs/heads/master", "bbb"⟩ cexCfg.init).exited = true
    ∧ runBranches (setPullErr happyWorld "refs/heads/master") cexCfg
        [⟨"refs/heads/master", "bbb"⟩] cexCfg.init
        = syncBranch (setPullErr happyWorld "refs/heads/master") cexCfg
            ⟨"refs/heads/master", "bbb"⟩ cexCfg.init
    ∧ (syncBranch (setResetErr happyWorld) cexCfg
        ⟨"refs/heads/master", "bbb"⟩ cexCfg.init).exited = true
    ∧ (syncBranch (setAllPushErr happyWorld) cexCfg
        ⟨"refs/heads/master", "bbb"⟩ cexCfg.init).exited = true
    ∧ (syncBranch (setStatusErr happyWorld) cexCfg
        ⟨"refs/heads/master", "bbb"⟩ cexCfg.init).exited = true
    ∧ (tagPhase (setAllPushErr happyWorld) cexCfg [⟨"refs/tags/v1", "ccc"⟩]).2 = true
    ∧ (runRepo (setStatusErr happyWorld) cexCfg).exited = true
    ∧ runAll [(openFailWorld, cexCfg)] = ([(runRepo openFailWorld cexCfg).trace], true) := by
  have h := autd_success_other_errors_fatal happyWorld (setAllFetchErr happyWorld)
    (setStatusErr happyWorld) openFailWorld cexCfg ⟨"refs/heads/master", "bbb"⟩
    cexCfg.init [] [] ⟨"origin", [⟨"refs/heads/master", "bbb"⟩]⟩ []
    ⟨"refs/tags/v1", "ccc"⟩ [] happyWorld_ops
  exact ⟨h.1, h.2.1, h.2.2.1, h.2.2.2.1, h.2.2.2.2.1, h.2.2.2.2.2.1,
    h.2.2.2.2.2.2.1 (by decide),
    h.2.2.2.2.2.2.2.1 (by decide) (by decide),
    h.2.2.2.2.2.2.2.2.1, h.2.2.2.2.2.2.2.2.2.1, h.2.2.2.2.2.2.2.2.2.2.1,
    h.2.2.2.2.2.2.2.2.2.2.2.1, h.2.2.2.2.2.2.2.2.2.2.2.2.1,
    h.2.2.2.2.2.2.2.2.2.2.2.2.2.1, h.2.2.2.2.2.2.2.2.2.2.2.2.2.2.1,
    h.2.2.2.2.2.2.2.2.2.2.2.2.2.2.2.1 (by decide) (by decide) (by decide),
    h.2.2.2.2.2.2.2.2.2.2.2.2.2.2.2.2 (by decide)⟩

lemma prov_recon_nil (w : World) (cfg : RepoCfg) :
    reconTrace (if w.getRemoteErr then [Act.createRemoteA cfg.targetName cfg.targetUrl]
      else []) = [] := by
  cases hg : w.getRemoteErr <;> simp [hg, reconTrace, reconOf]

lemma prov_no_tagPush (w : World) (cfg : RepoCfg) :
    ∀ a ∈ (if w.getRemoteErr then [Act.createRemoteA cfg.targetName cfg.targetUrl]
      else []), isTagPushA a = false := by
  cases hg : w.getRemoteErr <;> simp [hg]
  rfl

lemma runRepo_tag_recon (w : World) (cfg : RepoCfg)
    (htx : (tagPhase w cfg (runBranches w cfg (fetchPhase w cfg cfg.remotes).branches
      cfg.init).state.tags).2 = false) :
    reconTrace (tagPhase w cfg (runBranches w cfg (fetchPhase w cfg cfg.remotes).branches
        cfg.init).state.tags).1
      = cfg.init.tags.map (fun t => RAction.pushTag cfg.targetName [tagRefSpec t]) := by
  rw [tagPhase_spec w cfg _ htx, runBranches_tags]
  unfold reconTrace
  rw [List.filterMap_map]
  exact congrFun (List.filterMap_eq_map
    (fun t => RAction.pushTag cfg.targetName [tagRefSpec t])) cfg.init.tags

/-- C7: every remote of the repository is fetched in order, the branches
collected for reconciliation are exactly the branch-shaped refs advertised
by the remotes whose configured name equals the configured source name, and
a repository with no remote named like the source remote completes with
no exit and with no branch actions (only tag pushes) in its plan. -/
theorem branches_only_from_source (w : World) (cfg : RepoCfg) (hw : happyOps w) :
    (fetchPhase w cfg cfg.remotes).trace.filterMap fetchedRemote
        = cfg.remotes.map RemoteCfg.name
    ∧ (fetchPhase w cfg cfg.remotes).branches = sourceBranches cfg
    ∧ (∀ r ∈ (fetchPhase w cfg cfg.remotes).branches,
        ∃ rm ∈ cfg.remotes, rm.name = cfg.sourceName ∧ r ∈ rm.refs)
    ∧ ((∀ rm ∈ cfg.remotes, rm.name ≠ cfg.sourceName) →
        (runRepo w cfg).exited = false
        ∧ reconTrace (runRepo w cfg).trace
            = cfg.init.tags.map (fun t => RAction.pushTag cfg.targetName [tagRefSpec t])) := by
  obtain ⟨ho, hf, hl, hc, hh, hp, hr, hpu, hs⟩ := hw
  have hfx : (fetchPhase w cfg cfg.remotes).exited = false := fetchPhase_happy w cfg hf hl _
  have hbr : (fetchPhase w cfg cfg.remotes).branches = sourceBranches cfg :=
    fetchPhase_branches w cfg cfg.remotes hfx
  refine ⟨fetchPhase_fetches w cfg cfg.remotes hfx, hbr, ?_, ?_⟩
  · intro r hrm
    exact sourceBranches_mem cfg r (hbr ▸ hrm)
  · intro hnone
    have hE := runRepo_happy w cfg ⟨ho, hf, hl, hc, hh, hp, hr, hpu, hs⟩
    obtain ⟨-, -, hbx, htx, htr⟩ := runRepo_decomp w cfg hE
    refine ⟨hE, ?_⟩
    have hb0 : (fetchPhase w cfg cfg.remotes).branches = [] := by
      rw [hbr, sourceBranches_nil cfg hnone]
    rw [htr, reconTrace_append, reconTrace_append, reconTrace_append, prov_recon_nil,
      fetchPhase_recon_nil, runRepo_tag_recon w cfg htx, hb0]
    simp [runBranches, reconTrace]

/-- Witness for C7: the branches collected for the scenario repository, and a
repository with no source-named remote running to completion with a
tags-only plan. -/
theorem branches_only_from_source_witness :
    (fetchPhase happyWorld scenCfg scenCfg.remotes).branches = sourceBranches scenCfg
    ∧ ((runRepo happyWorld noSrcCfg).exited = false
       ∧ reconTrace (runRepo happyWorld noSrcCfg).trace
           = noSrcCfg.init.tags.map
               (fun t => RAction.pushTag noSrcCfg.targetName [tagRefSpec t])) :=
  ⟨(branches_only_from_source happyWorld scenCfg happyWorld_ops).2.1,
   (branches_only_from_source happyWorld noSrcCfg happyWorld_ops).2.2.2 (by decide)⟩

/-- C8: on the create path, after the forced create-checkout the program
re-reads HEAD; if the reported commit hash or reference name differs from
those of the remote branch, the run terminates with the consistency error right
after the checkout, and otherwise processing proceeds to the pull for
that branch. -/
theorem create_consistency_check (w : World) (cfg : RepoCfg) (r : Reference) (st : GitState)
    (hm : repoGetLocalBranchForRemote st.branches r = none)
    (hc : w.checkoutFails r.name = false) :
    ((w.headAfterCheckout r).hash ≠ r.hash ∨ (w.headAfterCheckout r).name ≠ r.name →
       (syncBranch w cfg r st).exited = true
       ∧ (syncBranch w cfg r st).trace = [Act.checkoutCreateA r.name r.hash])
    ∧ (w.headAfterCheckout r = r →
       (syncBranch w cfg r st).trace.take 2
         = [Act.checkoutCreateA r.name r.hash, Act.pullA cfg.sourceName r.name]) := by
  rw [syncBranch_create_eq w cfg r st hm]
  rw [if_neg (by simp [hc])]
  constructor
  · intro hbad
    have hcond : ((w.headAfterCheckout r).hash != r.hash
        || (w.headAfterCheckout r).name != r.name) = true := by
      rcases hbad with h | h
      · simp only [Bool.or_eq_true, bne_iff_ne]
        exact Or.inl h
      · simp only [Bool.or_eq_true, bne_iff_ne]
        exact Or.inr h
    rw [hcond]
    exact ⟨rfl, rfl⟩
  · intro heq
    have hcond : ((w.headAfterCheckout r).hash != r.hash
        || (w.headAfterCheckout r).name != r.name) = false := by
      rw [heq]; simp
    rw [hcond]
    simp only [Bool.false_eq_true, if_false]
    rw [heq]
    rcases afterCheckout_trace_cases w cfg r r
        { st with branches := setBranch st.branches r.name r.hash, headName := r.name }
      with ht | ht | ht <;> simp only [ht] <;> rfl

/-- Witness for C8: a collaborator that reports a wrong HEAD commit makes
the run stop at the consistency check; an honest collaborator proceeds to
the pull. -/
theorem create_consistency_check_witness :
    ((syncBranch badHeadWorld scenCfg ⟨"refs/heads/master", "abc123"⟩ scenCfg.init).exited = true
      ∧ (syncBranch badHeadWorld scenCfg ⟨"refs/heads/master", "abc123"⟩ scenCfg.init).trace
          = [Act.checkoutCreateA "refs/heads/master" "abc123"])
    ∧ (syncBranch happyWorld scenCfg ⟨"refs/heads/master", "abc123"⟩ scenCfg.init).trace.take 2
        = [Act.checkoutCreateA "refs/heads/master" "abc123",
           Act.pullA "origin" "refs/heads/master"] :=
  ⟨(create_consistency_check badHeadWorld scenCfg ⟨"refs/heads/master", "abc123"⟩ scenCfg.init
      (by decide) rfl).1 (Or.inl (by decide)),
   (create_consistency_check happyWorld scenCfg ⟨"refs/heads/master", "abc123"⟩ scenCfg.init
      (by decide) rfl).2 rfl⟩

/-- C9: in a run that completes, after all branch actions every local tag
is pushed to the target remote with the force ref-spec
`+refs/tags/(short name):refs/tags/(short name)` (self-mapped, never
renamed by the branch mapping), and this happens for every tag even when
the set of branches to sync is empty. -/
theorem tags_pushed_after_branches (w : World) (cfg : RepoCfg)
    (hE : (runRepo w cfg).exited = false) :
    (∃ pre, (runRepo w cfg).trace
        = pre ++ cfg.init.tags.map (fun t =>
            Act.pushTagA cfg.targetName
              ["+refs/tags/" ++ refShort t.name ++ ":refs/tags/" ++ refShort t.name])
      ∧ ∀ a ∈ pre, isTagPushA a = false)
    ∧ (sourceBranches cfg = [] →
        reconTrace (runRepo w cfg).trace
          = cfg.init.tags.map (fun t => RAction.pushTag cfg.targetName [tagRefSpec t])) := by
  obtain ⟨ho, hfx, hbx, htx, htr⟩ := runRepo_decomp w cfg hE
  constructor
  · refine ⟨(if w.getRemoteErr then [Act.createRemoteA cfg.targetName cfg.targetUrl] else [])
      ++ ((fetchPhase w cfg cfg.remotes).trace
        ++ (runBranches w cfg (fetchPhase w cfg cfg.remotes).branches cfg.init).trace), ?_, ?_⟩
    · rw [htr, tagPhase_spec w cfg _ htx, runBranches_tags]
      simp [List.append_assoc, tagRefSpec]
    · intro a ha
      rcases List.mem_append.1 ha with ha | ha
      · exact prov_no_tagPush w cfg a ha
      · rcases List.mem_append.1 ha with ha | ha
        · exact fetchPhase_no_tagPush w cfg cfg.remotes a ha
        · exact runBranches_no_tagPush w cfg _ _ a ha
  · intro hsb
    have hb0 : (fetchPhase w cfg cfg.remotes).branches = [] := by
      have hbr : (fetchPhase w cfg cfg.remotes).branches = sourceBranches cfg :=
        fetchPhase_branches w cfg cfg.remotes hfx
      rw [hbr, hsb]
    rw [htr, reconTrace_append, reconTrace_append, reconTrace_append, prov_recon_nil,
      fetchPhase_recon_nil, runRepo_tag_recon w cfg htx, hb0]
    simp [runBranches, reconTrace]

/-- Witness for C9: the scenario repository pushes its tag `v1` with the
self-mapped force ref-spec after the branch actions; the repository with
no source-named remote (empty branch list) still pushes its tag. -/
theorem tags_pushed_after_branches_witness :
    (∃ pre, (runRepo happyWorld scenCfg).trace
        = pre ++ scenCfg.init.tags.map (fun t =>
            Act.pushTagA scenCfg.targetName
              ["+refs/tags/" ++ refShort t.name ++ ":refs/tags/" ++ refShort t.name])
      ∧ ∀ a ∈ pre, isTagPushA a = false)
    ∧ reconTrace (runRepo happyWorld noSrcCfg).trace
        = noSrcCfg.init.tags.map
            (fun t => RAction.pushTag noSrcCfg.targetName [tagRefSpec t]) :=
  ⟨(tags_pushed_after_branches happyWorld scenCfg (by decide)).1,
   (tags_pushed_after_branches happyWorld noSrcCfg (by decide)).2 (by decide)⟩

/-- C10: target-remote provisioning never halts the run: the result of the
remote-creation call is discarded (the run is unchanged whatever it
returns), and when the target-remote lookup errors the run performs the
creation call with the configured name and URL and then continues exactly
as it would have without the lookup error. -/
theorem provisioning_never_halts (w : World) (cfg : RepoCfg) (x : GitRes)
    (ho : w.openFails = false) :
    runRepo { w with createRemoteRes := x } cfg = runRepo w cfg
    ∧ (runRepo { w with getRemoteErr := true } cfg).trace
        = Act.createRemoteA cfg.targetName cfg.targetUrl
            :: (runRepo { w with getRemoteErr := false } cfg).trace
    ∧ (runRepo { w with getRemoteErr := true } cfg).exited
        = (runRepo { w with getRemoteErr := false } cfg).exited := by
  have h1 : runRepo { w with createRemoteRes := x } cfg = runRepo w cfg :=
    runRepo_ext w { w with createRemoteRes := x } cfg rfl rfl rfl rfl rfl rfl rfl rfl rfl rfl
  have hfe : ∀ b, fetchPhase { w with getRemoteErr := b } cfg cfg.remotes
      = fetchPhase w cfg cfg.remotes :=
    fun b => fetchPhase_ext w { w with getRemoteErr := b } cfg rfl rfl cfg.remotes
  have hbe : ∀ b bs st, runBranches { w with getRemoteErr := b } cfg bs st
      = runBranches w cfg bs st :=
    fun b => runBranches_ext w { w with getRemoteErr := b } cfg rfl rfl rfl rfl rfl rfl
  have hte : ∀ b ts, tagPhase { w with getRemoteErr := b } cfg ts = tagPhase w cfg ts :=
    fun b => tagPhase_ext w { w with getRemoteErr := b } cfg rfl
  refine ⟨h1, ?_, ?_⟩ <;>
  · unfold runRepo
    simp only [hfe, hbe, hte]
    by_cases hfx : (fetchPhase w cfg cfg.remotes).exited = true <;>
      by_cases hbx : (runBranches w cfg (fetchPhase w cfg cfg.remotes).branches
          cfg.init).exited = true <;>
        simp [hfx, hbx, ho]

/-- Witness for C10: on the concrete repository the run ignores the
remote-creation result and continues identically past a failed
target-remote lookup. -/
theorem provisioning_never_halts_witness :
    runRepo { happyWorld with createRemoteRes := GitRes.err } cexCfg = runRepo happyWorld cexCfg
    ∧ (runRepo { happyWorld with getRemoteErr := true } cexCfg).trace
        = Act.createRemoteA cexCfg.targetName cexCfg.targetUrl
            :: (runRepo { happyWorld with getRemoteErr := false } cexCfg).trace
    ∧ (runRepo { happyWorld with getRemoteErr := true } cexCfg).exited
        = (runRepo { happyWorld with getRemoteErr := false } cexCfg).exited :=
  provisioning_never_halts happyWorld cexCfg GitRes.err rfl
